import Mathlib

/-!
Verification of the RFP document-processing repository.

This file gives a shallow embedding, in Lean 4, of the parts of the
repository that the specification talks about:

* `scripts/main.py` : the HWP text extractor `get_hwp_text` (OLE section
  enumeration, record walk over the decompressed `BodyText` streams) and
  the `clean_text` normaliser;
* `src/ingest/hwp_parser.py` : `HWPParser.parse`;
* `src/retrieval/file_based_retrieval.py` : `FileBasedRetrieval`
  (`search_in_file`, `search_across_files`, `_search_with_keyword`);
* `src/chunking/optimized_chunker.py` : `OptimizedChunker.chunk` and
  `_find_sentence_boundary`;
* `src/retrieval/hybrid.py` : `get_hybrid_retriever`.

Python strings are modelled as Lean `String` / `List Char`, byte buffers as
`List Nat` (each entry `< 256` where it matters), Python `float` scores as
exact rationals (the spec reasons about them algebraically), and Python
exceptions as `Option` / `Except`.  External libraries are parameters of
the embedding: the rapidfuzz similarity is an arbitrary function
`fuzz : String → String → ℚ` (assumed to land in `[0,100]` where a claim
needs it), and `zlib.decompress` is an arbitrary
`List Nat → Option (List Nat)`.
-/

/-! ## Python primitives -/

/-- Containment of one character list in another as a contiguous run. -/
def infixOf (needle : List Char) : List Char → Bool
  | [] => needle.isEmpty
  | c :: rest => needle.isPrefixOf (c :: rest) || infixOf needle rest

/-- Python `needle in hay` for strings: substring containment. -/
def pyIn (needle hay : String) : Bool :=
  infixOf needle.data hay.data

/-- Helper for `pySplit`: cut a character list at whitespace, dropping
empty pieces; `acc` holds the current token reversed. -/
def splitWsAux : List Char → List Char → List (List Char)
  | [], acc => if acc = [] then [] else [acc.reverse]
  | c :: rest, acc =>
    if c.isWhitespace then
      if acc = [] then splitWsAux rest []
      else acc.reverse :: splitWsAux rest []
    else splitWsAux rest (c :: acc)

/-- Python `s.split()` with no separator: split on runs of whitespace,
dropping empty pieces. -/
def pySplit (s : String) : List String :=
  (splitWsAux s.data []).map String.mk

/-- Python `s.lower()` (ASCII case folding; the claims' inputs have no
cased non-ASCII characters). -/
def pyLower (s : String) : String :=
  String.mk (s.data.map Char.toLower)

/-- Python `s.replace(old, new)` on character lists, replacing
non-overlapping occurrences left to right (`old` is never empty at its
use sites). -/
def replaceSeq (patt rep : List Char) : List Char → List Char
  | [] => []
  | c :: rest =>
    if hp1 : patt ≠ [] ∧ patt.isPrefixOf (c :: rest) then
      have _hne := hp1.1
      rep ++ replaceSeq patt rep ((c :: rest).drop patt.length)
    else c :: replaceSeq patt rep rest
termination_by l => l.length
decreasing_by
  · have hp : 1 ≤ patt.length := by
      cases patt with
      | nil => exact absurd rfl hp1.1
      | cons a l => simp
    simp [List.length_drop]
    omega
  · simp

/-- Python `s.strip()` on a list of characters. -/
def pyStrip (l : List Char) : List Char :=
  ((l.dropWhile Char.isWhitespace).reverse.dropWhile Char.isWhitespace).reverse

/-- Normalise a Python slice index (for a sequence of length `n`):
negative indices count from the end, then the result is clamped to
`[0, n]`. -/
def pySliceIdx (n : Nat) (i : Int) : Nat :=
  if i < 0 then ((n : Int) + i).toNat.min n else i.toNat.min n

/-- Python `l[a:b]` (step 1) with possibly negative bounds. -/
def pySlice {α : Type} (l : List α) (a b : Int) : List α :=
  let lo := pySliceIdx l.length a
  let hi := pySliceIdx l.length b
  (l.drop lo).take (hi - lo)

/-- Python `range(a, b)` (step `1`) over integers. -/
def pyRangeUp (a b : Int) : List Int :=
  (List.range (b - a).toNat).map (fun (k : Nat) => a + (k : Int))

/-- Python `range(a, b, -1)` over integers. -/
def pyRangeDown (a b : Int) : List Int :=
  (List.range (a - b).toNat).map (fun (k : Nat) => a - (k : Int))

/-! ## FileBasedRetrieval (`src/retrieval/file_based_retrieval.py`)

The summaries directory is modelled as the list of parsed JSON summaries
it contains; `load_file_summary` becomes an association lookup by
`doc_id`.  Of each summary the embedding keeps the fields the retrieval
code reads: `doc_id`, `file_name`, the metadata keys `사업명`
(business name) and `발주 기관` (ordering institution), and the chunk
list. -/

structure SummaryChunk where
  chunk_id : String
  chunk_index : Nat
  chunk_text : String
  deriving DecidableEq, Repr

structure FileSummary where
  doc_id : String
  file_name : String
  businessName : String
  institution : String
  chunks : List SummaryChunk
  deriving DecidableEq, Repr

structure ScoredChunk where
  chunk_id : String
  chunk_index : Nat
  chunk_text : String
  score : ℚ
  doc_id : String
  file_name : String
  deriving DecidableEq, Repr

namespace FBR

/-- Sort scored chunks by score, descending and stable
(Python `list.sort(key=lambda x: x["score"], reverse=True)`). -/
def sortByScore (l : List ScoredChunk) : List ScoredChunk :=
  List.mergeSort l (fun a b => decide (b.score ≤ a.score))

/-- Lookup of `load_file_summary`: the first summary whose `doc_id`
matches (a summary that cannot be found or parsed yields `none`). -/
def load_file_summary (files : List FileSummary) (doc_id : String) :
    Option FileSummary :=
  files.find? (fun s => s.doc_id = doc_id)

/-- Per-chunk relevance score computed inside `search_in_file`
(lines 100-117): `1.0` on an exact (lower-cased) substring match, the
fuzzy score `/ 100` otherwise, plus `0.1` for every token of
`query_lower.split()` that occurs in the chunk text, clamped above at
`1.0` by `min(score, 1.0)`. -/
def chunkScore (fuzz : String → String → ℚ) (query_lower chunk_text : String) : ℚ :=
  let base : ℚ :=
    if pyIn query_lower chunk_text then 1
    else fuzz query_lower chunk_text / 100
  let query_words := pySplit query_lower
  let word_matches : Nat := query_words.countP (fun w => pyIn w chunk_text)
  min (base + word_matches * (1 / 10)) 1

/-- Spec reading of the per-chunk score, for comparison with
`chunkScore`: `0.1` per DISTINCT query word found in the chunk text
(the spec's "add 0.1 per distinct query word"). -/
def chunkScoreSpecDistinct (fuzz : String → String → ℚ)
    (query_lower chunk_text : String) : ℚ :=
  let base : ℚ :=
    if pyIn query_lower chunk_text then 1
    else fuzz query_lower chunk_text / 100
  let distinct_matches : Nat :=
    ((pySplit query_lower).dedup.filter (fun w => pyIn w chunk_text)).length
  min (base + distinct_matches * (1 / 10)) 1

/-- `FileBasedRetrieval.search_in_file` (lines 67-125). -/
def search_in_file (fuzz : String → String → ℚ) (files : List FileSummary)
    (doc_id query : String) (top_k : Nat) : List ScoredChunk :=
  match load_file_summary files doc_id with
  | none => []
  | some summary =>
    let query_lower := pyLower query
    let scored := summary.chunks.map (fun c =>
      { chunk_id := c.chunk_id
        chunk_index := c.chunk_index
        chunk_text := c.chunk_text
        score := chunkScore fuzz query_lower (pyLower c.chunk_text)
        doc_id := doc_id
        file_name := summary.file_name })
    (sortByScore scored).take top_k

/-- File-level relevance score of `search_across_files` (lines 223-238):
`+2.0` when the query occurs in the file name, `+1.5` in the business
name, `+0.5` in the institution, and per query word `+0.5` / `+0.3` for
occurrence in the file name / business name. -/
def fileScore (query_lower : String) (fi : FileSummary) : ℚ :=
  let fn := pyLower fi.file_name
  let bn := pyLower fi.businessName
  let inst := pyLower fi.institution
  let s0 : ℚ :=
    (if pyIn query_lower fn then 2 else 0) +
    (if pyIn query_lower bn then 3 / 2 else 0) +
    (if pyIn query_lower inst then 1 / 2 else 0)
  let words := pySplit query_lower
  s0 + (words.map (fun w =>
    (if pyIn w fn then (1 : ℚ) / 2 else 0) +
    (if pyIn w bn then (3 : ℚ) / 10 else 0))).sum

/-- The `(doc_id, file_score)` pairs of metadata-relevant files, sorted by
score descending (lines 211-244). -/
def relevantFiles (query_lower : String) (available : List FileSummary)
    (files_to_search : List String) : List (String × ℚ) :=
  let unsorted := available.filterMap (fun fi =>
    if fi.doc_id ∈ files_to_search then
      let s := fileScore query_lower fi
      if 0 < s then some (fi.doc_id, s) else none
    else none)
  List.mergeSort unsorted (fun a b => decide (b.2 ≤ a.2))

/-- Search order of `search_across_files` (lines 247-249): relevant files
first, then the remaining requested files. -/
def filesOrdered (relevant : List (String × ℚ)) (files_to_search : List String) :
    List String :=
  relevant.map (fun rf => rf.1) ++
    files_to_search.filter (fun f => f ∉ relevant.map (fun rf => rf.1))

/-- Per-file result boost of `search_across_files` (lines 252-259): files
that matched on metadata get `min(score + file_score * 0.1, 1.0)`. -/
def boostedFileResults (fuzz : String → String → ℚ) (files : List FileSummary)
    (relevant : List (String × ℚ)) (query : String) (top_k : Nat)
    (doc_id : String) : List ScoredChunk :=
  let file_results := search_in_file fuzz files doc_id query top_k
  if doc_id ∈ relevant.map (fun rf => rf.1) then
    let fscore := ((relevant.find? (fun rf => rf.1 = doc_id)).map
      (fun rf => rf.2)).getD 0
    file_results.map (fun r => { r with score := min (r.score + fscore * (1 / 10)) 1 })
  else file_results

/-- The pre-fallback result list of `search_across_files` (lines 252-263),
with `file_filter` absent: all per-file results, boosted, sorted by score
descending, truncated to `top_k`. -/
def mainResults (fuzz : String → String → ℚ) (files : List FileSummary)
    (query : String) (top_k : Nat) : List ScoredChunk :=
  let files_to_search := files.map (fun f => f.doc_id)
  let relevant := relevantFiles (pyLower query) files files_to_search
  let ordered := filesOrdered relevant files_to_search
  (sortByScore (ordered.flatMap
    (boostedFileResults fuzz files relevant query top_k))).take top_k

/-- `FileBasedRetrieval._search_with_keyword` (lines 298-332). -/
def search_with_keyword (fuzz : String → String → ℚ) (files : List FileSummary)
    (keyword : String) (files_to_search : List String) (top_k : Nat) :
    List ScoredChunk :=
  let keyword_lower := pyLower keyword
  let relevant := files.filterMap (fun fi =>
    if fi.doc_id ∈ files_to_search ∧
        (pyIn keyword_lower (pyLower fi.file_name) ∨
         pyIn keyword_lower (pyLower fi.businessName)) then
      some fi.doc_id
    else none)
  let files_ordered := relevant ++ files_to_search.filter (fun f => f ∉ relevant)
  let all_results := (files_ordered.take 20).flatMap (fun d =>
    search_in_file fuzz files d keyword 3)
  (sortByScore all_results).take top_k

/-- Deduplication loop of the fallback path (lines 280-288): keep the
first result for each `chunk_id`, multiplying every kept score by `0.7`. -/
def dedupPenalise : List ScoredChunk → List String → List ScoredChunk
  | [], _ => []
  | r :: rs, seen =>
    if r.chunk_id ∈ seen then dedupPenalise rs seen
    else { r with score := r.score * (7 / 10) } ::
      dedupPenalise rs (r.chunk_id :: seen)

/-- The fallback branch of `search_across_files` (lines 266-294), as the
code performs it: only entered when the query splits into more than one
word; single-character words are skipped; each word is searched with a
budget of `top_k` integer-divided by the number of words. -/
def fallbackResults (fuzz : String → String → ℚ) (files : List FileSummary)
    (query : String) (top_k : Nat) (ordered : List String) : List ScoredChunk :=
  let query_words := pySplit query
  if 1 < query_words.length then
    let raw := (query_words.filter (fun w => 1 < w.length)).flatMap (fun w =>
      search_with_keyword fuzz files w ordered (top_k / query_words.length))
    (sortByScore (dedupPenalise raw [])).take top_k
  else []

/-- Spec reading of the fallback procedure, for comparison with
`fallbackResults`: split the query into whitespace-delimited words,
ignore single-character tokens, search each remaining word with a budget
of `top_k` divided by the number of words, deduplicate by `chunk_id`
multiplying every kept score by `0.7`, re-sort, truncate to `top_k`
(stated without the code's guard that the query must have more than one
word). -/
def specFallback (fuzz : String → String → ℚ) (files : List FileSummary)
    (query : String) (top_k : Nat) (ordered : List String) : List ScoredChunk :=
  let query_words := pySplit query
  let raw := (query_words.filter (fun w => 1 < w.length)).flatMap (fun w =>
    search_with_keyword fuzz files w ordered (top_k / query_words.length))
  (sortByScore (dedupPenalise raw [])).take top_k

/-- `FileBasedRetrieval.search_across_files` (lines 180-296).  The local
variable `available_files` is assigned only in the `else` branch of
`if file_filter:` (line 205) but read unconditionally at line 213, so a
truthy (non-empty) `file_filter` raises `UnboundLocalError`; the
embedding returns this as an `Except.error`. -/
def search_across_files (fuzz : String → String → ℚ) (files : List FileSummary)
    (query : String) (top_k : Nat) (file_filter : Option (List String))
    (fallback_search : Bool) : Except String (List ScoredChunk) :=
  match file_filter with
  | some (_ :: _) =>
    .error "UnboundLocalError: local variable available_files referenced before assignment"
  | _ =>
    let files_to_search := files.map (fun f => f.doc_id)
    let relevant := relevantFiles (pyLower query) files files_to_search
    let ordered := filesOrdered relevant files_to_search
    let results := mainResults fuzz files query top_k
    if results = [] ∧ fallback_search then
      .ok (fallbackResults fuzz files query top_k ordered)
    else .ok results

end FBR

/-! ## OptimizedChunker (`src/chunking/optimized_chunker.py`)

Text is a `List Char`; cursor positions are naturals (the Python loop
only ever assigns non-negative values to `index` for the non-negative
configurations the embedding covers), but `_find_sentence_boundary`
receives and returns Python integers, since the code calls it with
`end - 50`, which can be negative, and Python slicing with negative
bounds wraps around. -/

namespace OC

/-- The sentence-ending markers of `_find_sentence_boundary` (line 61),
in source order. -/
def sentenceEndings : List (List Char) :=
  [['.', ' '], ['.', '\n'], ['!', ' '], ['!', '\n'], ['?', ' '], ['?', '\n'],
   ['。'], ['\n', '\n']]

/-- `_find_sentence_boundary(text, start_pos, direction=1)` (lines 66-70):
scan `i` over `range(start_pos, min(start_pos + 100, len(text)))` and
return `i + len(ending)` for the first position where some ending matches
`text[i:i+len(ending)]`; otherwise `start_pos`. -/
def findFwdHit (text : List Char) (start_pos : Int) : Option Int :=
  (pyRangeUp start_pos (min (start_pos + 100) (text.length : Int))).findSome?
    (fun i => sentenceEndings.findSome? (fun e =>
      if pySlice text i (i + e.length) = e then some (i + (e.length : Int))
      else none))

def findFwd (text : List Char) (start_pos : Int) : Int :=
  (findFwdHit text start_pos).getD start_pos

/-- `_find_sentence_boundary(text, start_pos, direction=-1)` (lines 71-75):
scan `i` over `range(start_pos, max(start_pos - 100, 0), -1)` and return
the first `i` where some ending matches `text[i-len(ending):i]`;
otherwise `start_pos`. -/
def findBwdHit (text : List Char) (start_pos : Int) : Option Int :=
  (pyRangeDown start_pos (max (start_pos - 100) 0)).findSome?
    (fun i => sentenceEndings.findSome? (fun e =>
      if pySlice text (i - e.length) i = e then some i else none))

def findBwd (text : List Char) (start_pos : Int) : Int :=
  (findBwdHit text start_pos).getD start_pos

/-- Chunker configuration: the constructor arguments (restricted to
non-negative values).  The per-file-type settings table substitutes other
`(chunk_size, chunk_overlap)` pairs, which the theorems cover by
quantifying over the configuration. -/
structure Cfg where
  chunk_size : Nat
  chunk_overlap : Nat
  min_chunk_size : Nat
  deriving DecidableEq, Repr

/-- The default configuration (`DEFAULT_CHUNK_SIZE = 1000`,
`DEFAULT_CHUNK_OVERLAP = 200`, `MIN_CHUNK_SIZE = 100` in
`src/common/constants.py`). -/
def defaultCfg : Cfg := ⟨1000, 200, 100⟩

/-- One produced chunk record (lines 141-149); `msize` is the
`metadata["chunk_size"]` entry. -/
structure ChunkRec where
  chunk_id : String
  doc_id : String
  chunk_index : Nat
  chunk_text : List Char
  char_offset_start : Nat
  char_offset_end : Nat
  msize : Nat
  deriving DecidableEq, Repr

/-- Python `chunks[-1]` update: modify the last element, if any. -/
def modifyLast {α : Type} (f : α → α) : List α → List α
  | [] => []
  | [c] => [f c]
  | c :: cs => c :: modifyLast f cs

/-- The `end` position computed at the top of each loop iteration
(lines 121-128): `min(index + chunk_size, n)`, then moved to a backward
sentence boundary near `end - 50` whenever `end < n` and the boundary
lies beyond `index + min_chunk_size`. -/
def iterEnd (cfg : Cfg) (text : List Char) (index : Nat) : Nat :=
  let n := text.length
  let end0 := min (index + cfg.chunk_size) n
  if end0 < n then
    let b := findBwd text ((end0 : Int) - 50)
    if ((index : Int) + cfg.min_chunk_size) < b then b.toNat else end0
  else end0

/-- The `next_start` computed after appending a chunk (lines 157-163):
`max(end - chunk_overlap, index + min_chunk_size)`, then moved to a
forward sentence boundary when that lies before `end`. -/
def nextStart (cfg : Cfg) (text : List Char) (index e : Nat) : Nat :=
  let n := text.length
  let ns0 := max (e - cfg.chunk_overlap) (index + cfg.min_chunk_size)
  if ns0 < n then
    let f := findFwd text (ns0 : Int)
    if f < (e : Int) then f.toNat else ns0
  else ns0

/-- Loop state: accumulated chunks, cursor, next chunk index. -/
structure LoopState where
  chunks : List ChunkRec
  index : Nat
  chunk_index : Nat
  deriving Repr

/-- The `while index < n` loop of `chunk` (lines 120-165), with explicit
fuel counting executions of the loop body; `none` means the iteration
budget was exhausted while the loop condition still held. -/
def chunkLoop (cfg : Cfg) (text : List Char) (doc_id : String) :
    Nat → LoopState → Option (List ChunkRec)
  | 0, st => if st.index < text.length then none else some st.chunks
  | fuel + 1, st =>
    let n := text.length
    if st.index < n then
      let e := iterEnd cfg text st.index
      let ctext := (text.drop st.index).take (e - st.index)
      if (pyStrip ctext).length < cfg.min_chunk_size ∧ 0 < st.index then
        chunkLoop cfg text doc_id fuel
          { chunks := modifyLast (fun c =>
              { c with chunk_text := c.chunk_text ++ ctext, char_offset_end := e })
              st.chunks
            index := e
            chunk_index := st.chunk_index }
      else
        let rec0 : ChunkRec :=
          { chunk_id := doc_id ++ "_" ++ toString st.chunk_index
            doc_id := doc_id
            chunk_index := st.chunk_index
            chunk_text := ctext
            char_offset_start := st.index
            char_offset_end := e
            msize := ctext.length }
        if n ≤ e then some (st.chunks ++ [rec0])
        else
          chunkLoop cfg text doc_id fuel
            { chunks := st.chunks ++ [rec0]
              index := nextStart cfg text st.index e
              chunk_index := st.chunk_index + 1 }
    else some st.chunks

/-- Verification invariant for the `chunk` loop (claim C5), with `n` the
text length and `ov` the (clamped) overlap: either nothing has been
produced yet and the cursor is at `0`, or the produced chunks have dense
`chunk_index`es, non-decreasing starts, contiguous coverage
(each next start at most the previous end), non-decreasing ends,
non-empty in-range extents, first start `0`, and the cursor sits in
`(last.start, last.end]` with `last.end ≤ index + ov`. -/
def inv (n ov : Nat) (st : LoopState) : Prop :=
  (st.chunks = [] ∧ st.index = 0 ∧ st.chunk_index = 0) ∨
  (∃ cs last, st.chunks = cs ++ [last] ∧
    st.chunk_index = st.chunks.length ∧
    st.chunks.map (fun c => c.chunk_index) = List.range st.chunks.length ∧
    st.chunks.Chain' (fun a b => a.char_offset_start ≤ b.char_offset_start) ∧
    st.chunks.Chain' (fun a b => b.char_offset_start ≤ a.char_offset_end) ∧
    st.chunks.Chain' (fun a b => a.char_offset_end ≤ b.char_offset_end) ∧
    (∀ c ∈ st.chunks,
      c.char_offset_start < c.char_offset_end ∧ c.char_offset_end ≤ n) ∧
    st.chunks.head?.map (fun c => c.char_offset_start) = some 0 ∧
    last.char_offset_start < st.index ∧ st.index ≤ last.char_offset_end ∧
    last.char_offset_end ≤ st.index + ov ∧ 0 < st.index)

/-- Postcondition of the `chunk` loop (claim C5): one non-empty chunk
list with dense indices, ordered contiguous in-range extents, first
start `0` and last end `n`. -/
def post (n : Nat) (chunks : List ChunkRec) : Prop :=
  chunks ≠ [] ∧
  chunks.map (fun c => c.chunk_index) = List.range chunks.length ∧
  chunks.Chain' (fun a b => a.char_offset_start ≤ b.char_offset_start) ∧
  chunks.Chain' (fun a b => b.char_offset_start ≤ a.char_offset_end) ∧
  chunks.Chain' (fun a b => a.char_offset_end ≤ b.char_offset_end) ∧
  (∀ c ∈ chunks,
    c.char_offset_start < c.char_offset_end ∧ c.char_offset_end ≤ n) ∧
  chunks.head?.map (fun c => c.char_offset_start) = some 0 ∧
  (chunks.getLast?.map (fun c => c.char_offset_end)) = some n

/-- The final small-chunk merge (lines 168-173): when at least two chunks
were produced and the last one's text is shorter than `min_chunk_size`,
pop it and extend the previous chunk over it, updating
`metadata["chunk_size"]`. -/
def finalMerge (cfg : Cfg) (chunks : List ChunkRec) : List ChunkRec :=
  if 2 ≤ chunks.length ∧
      (chunks.getLast?.map (fun c => c.chunk_text.length)).getD 0 < cfg.min_chunk_size then
    match chunks.getLast? with
    | none => chunks
    | some last =>
      modifyLast (fun prev =>
        let t := prev.chunk_text ++ last.chunk_text
        { prev with chunk_text := t, char_offset_end := last.char_offset_end,
                    msize := t.length })
        (chunks.dropLast)
  else chunks

/-- `OptimizedChunker.chunk` (lines 98-175) for the no-`file_type` path:
empty text yields `[]`; otherwise the overlap is clamped to
`chunk_size // 3` (line 113) and the loop runs with the given iteration
budget. -/
def chunk (cfg : Cfg) (text : List Char) (doc_id : String) (fuel : Nat) :
    Option (List ChunkRec) :=
  if text = [] then some []
  else
    let cfg' : Cfg := { cfg with chunk_overlap := min cfg.chunk_overlap (cfg.chunk_size / 3) }
    match chunkLoop cfg' text doc_id fuel ⟨[], 0, 0⟩ with
    | none => none
    | some chunks => some (finalMerge cfg' chunks)

end OC

/-! ## HWP extraction (`scripts/main.py`)

A byte buffer is a `List Nat` with entries `< 256`; decoded text is a
`List Nat` of Unicode scalar values (`10` is `"\n"`).  An opened OLE
compound file is modelled by its directory listing, the bytes of its
`FileHeader` stream, and a partial map from section numbers to the raw
bytes of `BodyText/Section{i}`; `olefile.OleFileIO` raising is modelled
by passing `none` for the whole file, and `zlib.decompress` is an
arbitrary partial function. -/

namespace Hwp

/-- Record header field `rec_len = (header >> 20) & 0xfff` (line 67):
bits 20-31 of the 32-bit header word. -/
def recLen (hdr : Nat) : Nat := (hdr >>> 20) &&& 0xfff

/-- Record header field tag `header & 0x3ff` (line 68): the low 10 bits. -/
def recTag (hdr : Nat) : Nat := hdr &&& 0x3ff

/-- The `HWPTAG_PARA_TEXT` record type checked at line 68. -/
def paraTextTag : Nat := 67

/-- Read `struct.unpack_from("<I", b, i)[0]`: the little-endian 32-bit
word at offset `i`, failing (like `struct.error`) when fewer than 4
bytes remain. -/
def u32at (b : List Nat) (i : Nat) : Option Nat :=
  if i + 4 ≤ b.length then
    some (b.getD i 0 + 256 * b.getD (i + 1) 0 +
      65536 * b.getD (i + 2) 0 + 16777216 * b.getD (i + 3) 0)
  else none

/-- The record walk of `get_hwp_text` (lines 65-77), collecting the
payload bytes of every record whose tag is `paraTextTag`, in order.
Each iteration reads the header word at the cursor and advances by
`4 + rec_len`; the slice `b_data[i+4:i+4+rec_len]` silently truncates at
end-of-buffer.  `none` models a `struct.error` escaping to the caller
(cursor inside the buffer but fewer than 4 header bytes left). -/
def recordWalk (b : List Nat) (i : Nat) : Option (List (List Nat)) :=
  if i < b.length then
    match u32at b i with
    | none => none
    | some hdr =>
      let len := recLen hdr
      let payload := (b.drop (i + 4)).take len
      match recordWalk b (i + 4 + len) with
      | none => none
      | some rest =>
        some (if recTag hdr = paraTextTag then payload :: rest else rest)
  else some []
termination_by b.length - i
decreasing_by omega

/-- Little-endian UTF-16 byte pairing of `payload.decode("utf-16-le")`;
a trailing odd byte is dropped (`errors="ignore"`). -/
def decodeU16le : List Nat → List Nat
  | lo :: hi :: rest => (lo + 256 * hi) :: decodeU16le rest
  | _ => []

/-- UTF-16 code units to Unicode scalar values: surrogate pairs are
combined, lone surrogates are dropped (`errors="ignore"`). -/
def utf16Scalars : List Nat → List Nat
  | [] => []
  | [u] => if u < 0xD800 ∨ 0xDFFF < u then [u] else []
  | u :: v :: rest =>
    if u < 0xD800 ∨ 0xDFFF < u then u :: utf16Scalars (v :: rest)
    else if u ≤ 0xDBFF then
      if 0xDC00 ≤ v ∧ v ≤ 0xDFFF then
        (0x10000 + (u - 0xD800) * 1024 + (v - 0xDC00)) :: utf16Scalars rest
      else utf16Scalars (v :: rest)
    else utf16Scalars (v :: rest)
termination_by l => l.length
decreasing_by all_goals (simp [List.length_cons]; try omega)

/-- Decoded text of one section buffer: each paragraph-text payload
decoded as UTF-16 LE with a trailing `"\n"` (line 70), concatenated. -/
def sectionText (data : List Nat) : Option (List Nat) :=
  (recordWalk data 0).map (fun ps =>
    (ps.map (fun p => utf16Scalars (decodeU16le p) ++ [10])).flatten)

/-- Python `int(s)` on a base-10 literal with optional sign and
surrounding whitespace. -/
def pyInt? (s : String) : Option Int :=
  match pyStrip s.data with
  | [] => none
  | '-' :: rest =>
    if rest ≠ [] ∧ rest.all Char.isDigit then
      some (-(rest.foldl (fun a c => a * 10 + ((c.toNat : Int) - 48)) 0))
    else none
  | '+' :: rest =>
    if rest ≠ [] ∧ rest.all Char.isDigit then
      some (rest.foldl (fun a c => a * 10 + ((c.toNat : Int) - 48)) 0)
    else none
  | l =>
    if l.all Char.isDigit then
      some (l.foldl (fun a c => a * 10 + ((c.toNat : Int) - 48)) 0)
    else none

/-- Section numbers of the `BodyText` storage (lines 52-57): for every
directory entry `d` with `d[0] == "BodyText"`, parse
`int(d[1].replace("Section", ""))`, skipping entries that fail; then
`nums.sort()` - a numeric sort. -/
def sectionNums (dirs : List (List String)) : List Int :=
  let nums := dirs.filterMap (fun d =>
    if d.head? = some "BodyText" then
      (d.get? 1).bind (fun s =>
        pyInt? (String.mk (replaceSeq "Section".data [] s.data)))
    else none)
  List.mergeSort nums (fun a b => decide (a ≤ b))

/-- Effectful map over a list in the `Except` monad, stopping at the
first failure (the behaviour of the Python `for` loop, where the first
raising section aborts the whole extraction). -/
def exceptMapList {α β : Type} (f : α → Except String β) : List α → Except String (List β)
  | [] => .ok []
  | x :: xs =>
    match f x with
    | .error e => .error e
    | .ok y =>
      match exceptMapList f xs with
      | .error e => .error e
      | .ok ys => .ok (y :: ys)

/-- Model of an opened OLE compound file. -/
structure OleFile where
  dirs : List (List String)
  fileHeader : Option (List Nat)
  sections : Int → Option (List Nat)

/-- Decompressed-then-decoded text of `BodyText/Section{i}`
(lines 64-77): missing stream, failed decompression and a `struct.error`
during the walk all abort extraction. -/
def sectionUnitsE (decomp : List Nat → Option (List Nat)) (f : OleFile)
    (is_compressed : Bool) (i : Int) : Except String (List Nat) :=
  match f.sections i with
  | none => .error "openstream failed"
  | some raw =>
    let dataE : Except String (List Nat) :=
      if is_compressed then
        match decomp raw with
        | none => .error "zlib.decompress failed"
        | some d => .ok d
      else .ok raw
    match dataE with
    | .error e => .error e
    | .ok data =>
      match sectionText data with
      | none => .error "struct.error: unpack_from requires a buffer of at least 4 bytes"
      | some units => .ok units

/-- Body of `get_hwp_text` (lines 45-77) before `clean_text`, with the
`except` clause made explicit: `.error` is any exception reaching the
handler (which then returns `""`), `.ok` carries the accumulated text.
A file without a `BodyText` storage returns `""` directly (line 49). -/
def get_hwp_textE (decomp : List Nat → Option (List Nat))
    (file : Option OleFile) : Except String (List Nat) :=
  match file with
  | none => .error "OleFileIO raised"
  | some f =>
    if f.dirs.any (fun d => d.head? = some "BodyText") then
      match f.fileHeader with
      | none => .error "openstream(FileHeader) failed"
      | some hdr =>
        match hdr.get? 36 with
        | none => .error "IndexError: FileHeader shorter than 37 bytes"
        | some b =>
          let is_compressed := b &&& 1 = 1
          match exceptMapList (sectionUnitsE decomp f is_compressed)
              (sectionNums f.dirs) with
          | .error e => .error e
          | .ok parts => .ok parts.flatten
    else .ok []

/-- Character classes of `clean_text` (lines 24-42), on Unicode scalar
values.  `keepChar` is the complement of the removal pattern
`[^가-힣a-zA-Z0-9\s\.,\-\(\)\[\]\%\~\'\"·]`. -/
def keepChar (c : Nat) : Bool :=
  (0xAC00 ≤ c ∧ c ≤ 0xD7A3) ∨ (97 ≤ c ∧ c ≤ 122) ∨ (65 ≤ c ∧ c ≤ 90) ∨
  (48 ≤ c ∧ c ≤ 57) ∨ c = 32 ∨ c = 9 ∨ c = 10 ∨ c = 13 ∨ c = 11 ∨ c = 12 ∨
  c = 46 ∨ c = 44 ∨ c = 45 ∨ c = 40 ∨ c = 41 ∨ c = 91 ∨ c = 93 ∨ c = 37 ∨
  c = 126 ∨ c = 39 ∨ c = 34 ∨ c = 183

/-- Collapse of `re.sub(r' +', ' ', text)`: runs of spaces become one. -/
def collapseSpaces : List Nat → List Nat
  | 32 :: 32 :: rest => collapseSpaces (32 :: rest)
  | c :: rest => c :: collapseSpaces rest
  | [] => []

/-- Replacement of `re.sub(r'\n{3,}', '\n\n', text)`: maximal runs of at
least three newlines become exactly two. -/
def squeezeNewlines : List Nat → List Nat
  | 10 :: 10 :: 10 :: rest =>
    10 :: 10 :: squeezeNewlines (rest.dropWhile (fun c => c = 10))
  | c :: rest => c :: squeezeNewlines rest
  | [] => []
termination_by l => l.length
decreasing_by
  · have := (List.dropWhile_sublist (l := rest) (p := fun c => c = 10)).length_le
    simp only [List.length_cons]
    omega
  · simp [List.length_cons]

/-- Whitespace stripped by `str.strip()` at the end of `clean_text`. -/
def wsScalar (c : Nat) : Bool := c = 32 ∨ c = 9 ∨ c = 10 ∨ c = 13 ∨ c = 11 ∨ c = 12

/-- `clean_text` (lines 24-42): control characters to spaces, characters
outside the keep pattern to spaces, space runs collapsed, long newline
runs squeezed, ends stripped. -/
def clean_text (text : List Nat) : List Nat :=
  let t1 := text.map (fun c => if c = 0x1f ∨ c = 0x0b ∨ c = 0x0c then 32 else c)
  let t2 := t1.map (fun c =>
    if (c ≤ 8) ∨ (0x0e ≤ c ∧ c ≤ 0x1f) ∨ c = 0x7f then 32 else c)
  let t3 := t2.map (fun c => if keepChar c then c else 32)
  let t4 := collapseSpaces t3
  let t5 := squeezeNewlines t4
  ((t5.dropWhile wsScalar).reverse.dropWhile wsScalar).reverse

/-- An abstract HWP record: type tag (10 bits), level (10 bits, unused
by the extractor), claimed payload length (12 bits), payload bytes. -/
structure HwpRec where
  tag : Nat
  level : Nat
  len : Nat
  payload : List Nat
  deriving DecidableEq, Repr

/-- Record well-formedness: fields within their header bit ranges and
payload exactly as long as claimed. -/
def wellFormedRec (r : HwpRec) : Prop :=
  r.tag < 1024 ∧ r.level < 1024 ∧ r.len < 4096 ∧ r.payload.length = r.len

/-- Little-endian serialisation of a record header word: the tag in the
low 10 bits, the level in bits 10-19, the length in bits 20-31. -/
def encodeHeader (tag level len : Nat) : List Nat :=
  let h := tag + 1024 * level + 1048576 * len
  [h % 256, h / 256 % 256, h / 65536 % 256, h / 16777216 % 256]

/-- Serialisation of a record: header word then payload (a truncated
final record simply carries fewer payload bytes than `len`). -/
def encodeRec (r : HwpRec) : List Nat :=
  encodeHeader r.tag r.level r.len ++ r.payload

/-- `get_hwp_text` (lines 45-78): the happy path returns
`clean_text(text)`, the `except` handler and the missing-`BodyText` path
return the empty string. -/
def get_hwp_text (decomp : List Nat → Option (List Nat))
    (file : Option OleFile) : List Nat :=
  match get_hwp_textE decomp file with
  | .error _ => []
  | .ok t => clean_text t

end Hwp

/-! ## HWPParser.parse (`src/ingest/hwp_parser.py`, lines 54-82)

The body of the `try` block performs file-system and OLE reads
(`_extract_text`, `_extract_metadata`, `hwp_path.stat()`); the embedding
abstracts each as an `Except`-valued parameter, in the evaluation order
of the source, and keeps of the produced dictionary the `text` value and
the `error` entry of the metadata. -/

namespace HwpParser

/-- Result of `HWPParser.parse`: the extracted text and, when the
`except` branch ran, the `error` string recorded in the metadata. -/
structure ParseResult where
  text : String
  errorMsg : Option String
  deriving DecidableEq, Repr

/-- `HWPParser.parse` (lines 54-82): if any step of the `try` body fails,
return empty text with the failure reason in the metadata instead of
propagating the exception. -/
def parse (extractRes : Except String String)
    (metaRes : Except String (List (String × String)))
    (statRes : Except String Nat) : ParseResult :=
  match extractRes with
  | .error e => { text := "", errorMsg := some e }
  | .ok t =>
    match metaRes with
    | .error e => { text := "", errorMsg := some e }
    | .ok _ =>
      match statRes with
      | .error e => { text := "", errorMsg := some e }
      | .ok _ => { text := t, errorMsg := none }

end HwpParser

/-! ## Hybrid retriever (`src/retrieval/hybrid.py`)

The langchain objects are modelled by their initialisation data: the
vector store by whether it has a `get` method and what `get()` returns
(`.error` = the fetch raised), a retriever by which branch built it. -/

namespace Hybrid

structure Doc where
  page_content : String
  metadata : String
  deriving DecidableEq, Repr

/-- Model of the vector store argument: `hasGet` is
`hasattr(vector_store, "get")`, `getResult` the outcome of
`vector_store.get()` (documents with their metadata; a falsy text is
the empty string). -/
structure VectorStoreModel where
  hasGet : Bool
  getResult : Except String (List (String × String))

/-- The retriever returned by `get_hybrid_retriever`: either the plain
vector retriever, or the BM25 + vector ensemble. -/
inductive Retr where
  | vectorOnly (k : Nat)
  | ensemble (bm25Docs : List Doc) (k : Nat) (weights : List ℚ)
  deriving DecidableEq, Repr

/-- `get_hybrid_retriever` (lines 210-269).  `documents = []` stands for
both `None` and an empty list (both falsy at lines 234 and 256). -/
def get_hybrid_retriever (vs : VectorStoreModel) (documents : List Doc)
    (k : Nat) (weights : List ℚ) : Retr :=
  let fetched : Except Unit (List Doc) :=
    if documents.isEmpty then
      if vs.hasGet then
        match vs.getResult with
        | .error _ => .error ()
        | .ok pairs =>
          .ok ((pairs.filter (fun p => p.1 ≠ "")).map
            (fun p => { page_content := p.1, metadata := p.2 }))
      else .error ()
    else .ok documents
  match fetched with
  | .error _ => .vectorOnly k
  | .ok docs =>
    if docs.isEmpty then .vectorOnly k
    else .ensemble docs k weights

end Hybrid

/-! ## Shared lemmas -/

theorem modifyLast_append_one {α : Type} (f : α → α) (l : List α) (a : α) :
    OC.modifyLast f (l ++ [a]) = l ++ [f a] := by
  induction l with
  | nil => rfl
  | cons x xs ih =>
    cases xs with
    | nil => simp [OC.modifyLast]
    | cons y ys => simpa [OC.modifyLast] using ih

theorem mem_pyRangeUp {a b i : Int} (h : i ∈ pyRangeUp a b) : a ≤ i ∧ i < b := by
  simp only [pyRangeUp, List.mem_map, List.mem_range] at h
  obtain ⟨k, hk, rfl⟩ := h
  omega

theorem mem_pyRangeDown {a b i : Int} (h : i ∈ pyRangeDown a b) : b < i ∧ i ≤ a := by
  simp only [pyRangeDown, List.mem_map, List.mem_range] at h
  obtain ⟨k, hk, rfl⟩ := h
  omega

theorem findSome?_mem {α β : Type} {f : α → Option β} {l : List α} {r : β}
    (h : l.findSome? f = some r) : ∃ x ∈ l, f x = some r := by
  induction l with
  | nil => simp [List.findSome?] at h
  | cons x xs ih =>
    rw [List.findSome?_cons] at h
    cases hx : f x with
    | some v => rw [hx] at h; exact ⟨x, List.mem_cons_self _ _, hx.trans h⟩
    | none =>
      rw [hx] at h
      obtain ⟨y, hy, hfy⟩ := ih h
      exact ⟨y, List.mem_cons_of_mem _ hy, hfy⟩

/-- The forward sentence-boundary search never moves the position
backwards. -/
theorem findFwd_ge (text : List Char) (start_pos : Int) :
    start_pos ≤ OC.findFwd text start_pos := by
  rw [OC.findFwd]
  cases hfs : OC.findFwdHit text start_pos with
  | none => simp
  | some r =>
    simp only [Option.getD_some]
    obtain ⟨i, hi, hfi⟩ := findSome?_mem hfs
    obtain ⟨e, _, hfe⟩ := findSome?_mem hfi
    have hmem := mem_pyRangeUp hi
    split at hfe
    · cases hfe
      have he : (0 : Int) ≤ e.length := Int.ofNat_nonneg _
      omega
    · cases hfe

/-- The backward sentence-boundary search returns either `start_pos` or a
found position in `(max (start_pos - 100) 0, start_pos]`. -/
theorem findBwd_bounds (text : List Char) (start_pos : Int) :
    OC.findBwd text start_pos = start_pos ∨
    (max (start_pos - 100) 0 < OC.findBwd text start_pos ∧
      OC.findBwd text start_pos ≤ start_pos) := by
  rw [OC.findBwd]
  cases hfs : OC.findBwdHit text start_pos with
  | none => simp
  | some r =>
    simp only [Option.getD_some]
    obtain ⟨i, hi, hfi⟩ := findSome?_mem hfs
    obtain ⟨e, _, hfe⟩ := findSome?_mem hfi
    have hmem := mem_pyRangeDown hi
    right
    split at hfe
    · cases hfe; omega
    · cases hfe

/-! ## Claim C2 -/

/-- C2: whenever `search_across_files` is called with a non-empty
`file_filter`, the read of the unassigned local `available_files` at the
metadata-matching loop raises (an `UnboundLocalError`), so the call never
returns a result list; with `file_filter` absent (`None`) or empty the
function returns normally. -/
theorem C2_file_filter_unbound_local :
    (∀ (fuzz : String → String → ℚ) (files : List FileSummary) (query : String)
        (top_k : Nat) (f : String) (fs : List String) (fb : Bool),
      FBR.search_across_files fuzz files query top_k (some (f :: fs)) fb =
        .error
          "UnboundLocalError: local variable available_files referenced before assignment") ∧
    (∀ (fuzz : String → String → ℚ) (files : List FileSummary) (query : String)
        (top_k : Nat) (fb : Bool),
      (FBR.search_across_files fuzz files query top_k none fb).isOk = true ∧
      (FBR.search_across_files fuzz files query top_k (some []) fb).isOk = true) := by
  constructor
  · intro fuzz files query top_k f fs fb
    rfl
  · intro fuzz files query top_k fb
    constructor <;>
      · unfold FBR.search_across_files
        dsimp only
        split <;> rfl

/-! ## Claim C10 -/

/-- C10: whenever the BM25 side cannot be initialised - no documents are
supplied and the vector store has no `get` method, or the fetch raises,
or the fetch yields no truthy documents - `get_hybrid_retriever` returns
the plain vector retriever instead of an ensemble (and, being total, it
never raises for these cases). -/
theorem C10_bm25_unavailable_vector_only :
    ∀ (vs : Hybrid.VectorStoreModel) (k : Nat) (w : List ℚ),
      (vs.hasGet = false →
        Hybrid.get_hybrid_retriever vs [] k w = .vectorOnly k) ∧
      (∀ e, vs.getResult = .error e →
        Hybrid.get_hybrid_retriever vs [] k w = .vectorOnly k) ∧
      (∀ pairs, vs.getResult = .ok pairs →
        (∀ p ∈ pairs, p.1 = "") →
        Hybrid.get_hybrid_retriever vs [] k w = .vectorOnly k) := by
  intro vs k w
  refine ⟨fun hg => ?_, fun e he => ?_, fun pairs hp hf => ?_⟩
  · simp [Hybrid.get_hybrid_retriever, hg]
  · cases hg : vs.hasGet <;> simp [Hybrid.get_hybrid_retriever, he, hg]
  · have hfe : pairs.filter (fun p => !decide (p.1 = "")) = [] := by
      rw [List.filter_eq_nil_iff]
      intro p hp2
      simp [hf p hp2]
    cases hg : vs.hasGet <;>
      simp [Hybrid.get_hybrid_retriever, hp, hg, hfe]

/-- Witness for C10 at concrete inputs exercising each hypothesis. -/
theorem C10_witness :
    Hybrid.get_hybrid_retriever ⟨false, .ok []⟩ [] 4 [1 / 2, 1 / 2] =
      .vectorOnly 4 ∧
    Hybrid.get_hybrid_retriever ⟨true, .error "fetch raised"⟩ [] 4 [1 / 2, 1 / 2] =
      .vectorOnly 4 ∧
    Hybrid.get_hybrid_retriever ⟨true, .ok [("", "m")]⟩ [] 4 [1 / 2, 1 / 2] =
      .vectorOnly 4 :=
  ⟨(C10_bm25_unavailable_vector_only ⟨false, .ok []⟩ 4 [1 / 2, 1 / 2]).1 rfl,
   (C10_bm25_unavailable_vector_only ⟨true, .error "fetch raised"⟩ 4
      [1 / 2, 1 / 2]).2.1 "fetch raised" rfl,
   (C10_bm25_unavailable_vector_only ⟨true, .ok [("", "m")]⟩ 4
      [1 / 2, 1 / 2]).2.2 [("", "m")] rfl (by simp)⟩

/-! ## Claim C9 -/

theorem exceptMapList_error {α β : Type} (f : α → Except String β) (l : List α)
    (x : α) (hx : x ∈ l) (e : String) (hfx : f x = .error e) :
    ∃ e2, Hwp.exceptMapList f l = .error e2 := by
  induction l with
  | nil => cases hx
  | cons y ys ih =>
    rcases List.mem_cons.1 hx with rfl | hmem
    · exact ⟨e, by simp [Hwp.exceptMapList, hfx]⟩
    · cases hfy : f y with
      | error e3 => exact ⟨e3, by simp [Hwp.exceptMapList, hfy]⟩
      | ok v =>
        obtain ⟨e2, h2⟩ := ih hmem
        exact ⟨e2, by simp [Hwp.exceptMapList, hfy, h2]⟩

/-- C9: extraction failures are contained.  Every exception inside
`get_hwp_text` (failed open, missing `FileHeader`, header shorter than 37
bytes, failed section stream / decompression / record walk) makes it
return the empty string rather than propagate, and `HWPParser.parse`
turns any failure of its `try` body into empty text with the reason
recorded in the metadata. -/
theorem C9_extraction_failures_isolated :
    (∀ (decomp : List Nat → Option (List Nat)) (file : Option Hwp.OleFile)
        (e : String), Hwp.get_hwp_textE decomp file = .error e →
        Hwp.get_hwp_text decomp file = []) ∧
    (∀ decomp, Hwp.get_hwp_text decomp none = []) ∧
    (∀ decomp (f : Hwp.OleFile),
      f.dirs.any (fun d => d.head? = some "BodyText") = true →
      f.fileHeader = none → Hwp.get_hwp_text decomp (some f) = []) ∧
    (∀ decomp (f : Hwp.OleFile) (hdr : List Nat),
      f.dirs.any (fun d => d.head? = some "BodyText") = true →
      f.fileHeader = some hdr → hdr.length ≤ 36 →
      Hwp.get_hwp_text decomp (some f) = []) ∧
    (∀ decomp (f : Hwp.OleFile) (hdr : List Nat) (b : Nat) (i : Int) (e : String),
      f.fileHeader = some hdr → hdr[36]? = some b →
      i ∈ Hwp.sectionNums f.dirs →
      Hwp.sectionUnitsE decomp f (decide (b &&& 1 = 1)) i = .error e →
      Hwp.get_hwp_text decomp (some f) = []) ∧
    (∀ me st e, HwpParser.parse (.error e) me st = ⟨"", some e⟩) ∧
    (∀ t st e, HwpParser.parse (.ok t) (.error e) st = ⟨"", some e⟩) ∧
    (∀ t (me : List (String × String)) e,
      HwpParser.parse (.ok t) (.ok me) (.error e) = ⟨"", some e⟩) := by
  refine ⟨fun decomp file e h => ?_, fun decomp => rfl,
    fun decomp f hb hh => ?_, fun decomp f hdr hb hh hlen => ?_,
    fun decomp f hdr b i e hh h36 hmem hsec => ?_,
    fun me st e => rfl, fun t st e => rfl, fun t me e => rfl⟩
  · simp [Hwp.get_hwp_text, h]
  · simp [Hwp.get_hwp_text, Hwp.get_hwp_textE, hb, hh]
  · have h36 : hdr[36]? = none := by
      rw [List.getElem?_eq_none_iff]
      exact hlen
    simp [Hwp.get_hwp_text, Hwp.get_hwp_textE, hb, hh, h36]
  · cases hb : f.dirs.any (fun d => d.head? = some "BodyText") with
    | false =>
      simp [Hwp.get_hwp_text, Hwp.get_hwp_textE, hb, Hwp.clean_text,
        Hwp.collapseSpaces, Hwp.squeezeNewlines]
    | true =>
      obtain ⟨e2, h2⟩ :=
        exceptMapList_error (Hwp.sectionUnitsE decomp f (decide (b &&& 1 = 1)))
          (Hwp.sectionNums f.dirs) i hmem e hsec
      simp only [Nat.and_one_is_mod] at h2
      simp [Hwp.get_hwp_text, Hwp.get_hwp_textE, hb, hh, h36, h2]

unseal replaceSeq List.mergeSort List.merge in
/-- Witness for C9 at concrete corrupt inputs: missing `FileHeader`
stream, too-short header, failing section stream, and a raising
`parse` body. -/
theorem C9_witness :
    Hwp.get_hwp_text (fun _ => none)
      (some ⟨[["BodyText", "Section0"]], none, fun _ => none⟩) = [] ∧
    Hwp.get_hwp_text (fun _ => none)
      (some ⟨[["BodyText", "Section0"]], some [], fun _ => none⟩) = [] ∧
    Hwp.get_hwp_text (fun _ => none)
      (some ⟨[["BodyText", "Section0"]], some (List.replicate 37 0),
        fun _ => none⟩) = [] ∧
    HwpParser.parse (.error "boom") (.ok []) (.ok 0) = ⟨"", some "boom"⟩ :=
  ⟨C9_extraction_failures_isolated.2.2.1 (fun _ => none) _ (by decide) rfl,
   C9_extraction_failures_isolated.2.2.2.1 (fun _ => none) _ [] (by decide) rfl
     (by decide),
   C9_extraction_failures_isolated.2.2.2.2.1 (fun _ => none) _
     (List.replicate 37 0) 0 0 "openstream failed" rfl (by decide) (by decide)
     rfl,
   C9_extraction_failures_isolated.2.2.2.2.2.1 (.ok []) (.ok 0) "boom"⟩

/-! ## Claim C8 -/

theorem sortedInt_mergeSort (l : List Int) :
    (List.mergeSort l (fun a b => decide (a ≤ b))).Sorted (· ≤ ·) := by
  have h : (List.mergeSort l (fun a b => decide (a ≤ b))).Pairwise
      (fun a b => decide (a ≤ b) = true) :=
    List.sorted_mergeSort
      (fun a b c hab hbc => by simp_all; omega)
      (fun a b => by simp [Bool.or_eq_true]; omega) l
  exact h.imp (by simp)

theorem sorted_split_two {l : List Int} (hs : l.Sorted (· ≤ ·)) {a b : Int}
    (ha : a ∈ l) (hb : b ∈ l) (hab : a < b) :
    ∃ l1 l2 l3, l = l1 ++ a :: (l2 ++ b :: l3) := by
  obtain ⟨s, t, rfl⟩ := List.append_of_mem ha
  have hb' : b ∈ t := by
    rcases List.mem_append.1 hb with hbs | hbt
    · have hba : b ≤ a :=
        (List.pairwise_append.1 hs).2.2 b hbs a (List.mem_cons_self _ _)
      omega
    · rcases List.mem_cons.1 hbt with rfl | h
      · omega
      · exact h
  obtain ⟨u, v, rfl⟩ := List.append_of_mem hb'
  exact ⟨s, u, v, rfl⟩

theorem exceptMapList_ok {α β : Type} (f : α → Except String β) (u : α → β)
    (l : List α) (h : ∀ x ∈ l, f x = .ok (u x)) :
    Hwp.exceptMapList f l = .ok (l.map u) := by
  induction l with
  | nil => rfl
  | cons x xs ih =>
    have hx := h x (List.mem_cons_self _ _)
    have hxs := ih (fun y hy => h y (List.mem_cons_of_mem _ hy))
    simp [Hwp.exceptMapList, hx, hxs]

/-- C8: the `BodyText` section numbers are sorted numerically (so `2`
precedes `10`, unlike a lexicographic sort), and when every section
decodes, the extracted text is the concatenation of the per-section texts
in that numeric order - in particular Section2's text appears before
Section10's in the pre-cleanup output. -/
theorem C8_sections_in_numeric_order :
    (∀ dirs : List (List String), (Hwp.sectionNums dirs).Sorted (· ≤ ·)) ∧
    (∀ (decomp : List Nat → Option (List Nat)) (f : Hwp.OleFile)
        (hdr : List Nat) (b : Nat) (u : Int → List Nat),
      f.dirs.any (fun d => d.head? = some "BodyText") = true →
      f.fileHeader = some hdr → hdr[36]? = some b →
      (∀ i ∈ Hwp.sectionNums f.dirs,
        Hwp.sectionUnitsE decomp f (decide (b &&& 1 = 1)) i = .ok (u i)) →
      2 ∈ Hwp.sectionNums f.dirs → 10 ∈ Hwp.sectionNums f.dirs →
      ∃ pre mid post, Hwp.get_hwp_textE decomp (some f) =
        .ok (pre ++ u 2 ++ (mid ++ u 10 ++ post))) := by
  have hnsorted : ∀ dirs : List (List String),
      (Hwp.sectionNums dirs).Sorted (· ≤ ·) := fun dirs => sortedInt_mergeSort _
  constructor
  · exact hnsorted
  · intro decomp f hdr b u hb hh h36 hall h2 h10
    obtain ⟨l1, l2, l3, hdec⟩ :=
      sorted_split_two (hnsorted f.dirs) h2 h10 (by omega)
    have hmap := exceptMapList_ok
      (Hwp.sectionUnitsE decomp f (decide (b &&& 1 = 1))) u
      (Hwp.sectionNums f.dirs) hall
    refine ⟨(l1.map u).flatten, (l2.map u).flatten, (l3.map u).flatten, ?_⟩
    simp only [Nat.and_one_is_mod] at hmap
    have hrun : Hwp.get_hwp_textE decomp (some f) =
        .ok (((Hwp.sectionNums f.dirs).map u).flatten) := by
      simp [Hwp.get_hwp_textE, hb, hh, h36, hmap]
    rw [hrun, hdec]
    simp [List.flatten_append, List.append_assoc]

unseal Hwp.recordWalk Hwp.utf16Scalars replaceSeq List.mergeSort List.merge in
/-- Witness for C8: a file whose directory lists `Section10` before
`Section2`, each section holding one paragraph-text record; the decoded
text of Section2 precedes that of Section10. -/
theorem C8_witness :
    ∃ pre mid post,
      Hwp.get_hwp_textE (fun _ => none)
        (some ⟨[["BodyText", "Section10"], ["BodyText", "Section2"]],
          some (List.replicate 37 0),
          fun i => if i = 2 then some [67, 0, 32, 0, 65, 0]
            else if i = 10 then some [67, 0, 32, 0, 66, 0] else none⟩) =
      .ok (pre ++ (fun i : Int => if i = 2 then [65, 10] else [66, 10]) 2 ++
        (mid ++ (fun i : Int => if i = 2 then [65, 10] else [66, 10]) 10 ++
          post)) := by
  refine C8_sections_in_numeric_order.2 (fun _ => none) _
    (List.replicate 37 0) 0 (fun i : Int => if i = 2 then [65, 10] else [66, 10])
    (by decide) rfl (by decide) ?_ (by decide) (by decide)
  intro i hi
  have hnums : Hwp.sectionNums
      [["BodyText", "Section10"], ["BodyText", "Section2"]] = [2, 10] := by
    decide
  rw [hnums] at hi
  rcases List.mem_cons.1 hi with rfl | hi2
  · rfl
  · rcases List.mem_cons.1 hi2 with rfl | hi3
    · rfl
    · cases hi3

/-! ## Claim C3 -/

theorem chunkScore_bounds (fuzz : String → String → ℚ)
    (hf : ∀ a b, 0 ≤ fuzz a b ∧ fuzz a b ≤ 100) (q c : String) :
    0 ≤ FBR.chunkScore fuzz q c ∧ FBR.chunkScore fuzz q c ≤ 1 := by
  unfold FBR.chunkScore
  constructor
  · apply le_min _ zero_le_one
    have hbase : (0:ℚ) ≤ (if pyIn q c then 1 else fuzz q c / 100) := by
      split
      · exact zero_le_one
      · exact div_nonneg (hf q c).1 (by norm_num)
    have hcnt : (0:ℚ) ≤ ((pySplit q).countP (fun w => pyIn w c)) * (1 / 10) := by
      positivity
    linarith
  · exact min_le_right _ _

theorem mem_sortByScore {r : ScoredChunk} {l : List ScoredChunk} :
    r ∈ FBR.sortByScore l ↔ r ∈ l := by
  unfold FBR.sortByScore
  exact List.mem_mergeSort

theorem search_in_file_score_shape {fuzz files d q k r}
    (hr : r ∈ FBR.search_in_file fuzz files d q k) :
    ∃ c summary, FBR.load_file_summary files d = some summary ∧
      c ∈ summary.chunks ∧
      r.score = FBR.chunkScore fuzz (pyLower q) (pyLower c.chunk_text) := by
  unfold FBR.search_in_file at hr
  cases hload : FBR.load_file_summary files d with
  | none => rw [hload] at hr; cases hr
  | some summary =>
    rw [hload] at hr
    have hr2 := (List.take_sublist _ _).mem hr
    rw [mem_sortByScore] at hr2
    obtain ⟨c, hc, rfl⟩ := List.mem_map.1 hr2
    exact ⟨c, summary, rfl, hc, rfl⟩

theorem search_in_file_bounds {fuzz files d q k r}
    (hf : ∀ a b, 0 ≤ fuzz a b ∧ fuzz a b ≤ 100)
    (hr : r ∈ FBR.search_in_file fuzz files d q k) :
    0 ≤ r.score ∧ r.score ≤ 1 := by
  obtain ⟨c, summary, _, _, hs⟩ := search_in_file_score_shape hr
  rw [hs]
  exact chunkScore_bounds fuzz hf _ _

theorem fileScore_nonneg (q : String) (fi : FileSummary) :
    0 ≤ FBR.fileScore q fi := by
  unfold FBR.fileScore
  have h1 : (0:ℚ) ≤ (if pyIn q (pyLower fi.file_name) then 2 else 0) +
      (if pyIn q (pyLower fi.businessName) then 3 / 2 else 0) +
      (if pyIn q (pyLower fi.institution) then 1 / 2 else 0) := by
    have := fun (b : Bool) (x : ℚ) (hx : 0 ≤ x) =>
      (by split <;> simp [hx] : (0:ℚ) ≤ if b then x else 0)
    split <;> split <;> split <;> norm_num
  have h2 : (0:ℚ) ≤ ((pySplit q).map (fun w =>
      (if pyIn w (pyLower fi.file_name) then (1 : ℚ) / 2 else 0) +
      (if pyIn w (pyLower fi.businessName) then (3 : ℚ) / 10 else 0))).sum := by
    apply List.sum_nonneg
    intro x hx
    obtain ⟨w, _, rfl⟩ := List.mem_map.1 hx
    split <;> split <;> norm_num
  linarith

theorem relevantFiles_nonneg {q : String} {files : List FileSummary}
    {fts : List String} {rf : String × ℚ}
    (h : rf ∈ FBR.relevantFiles q files fts) : 0 ≤ rf.2 := by
  unfold FBR.relevantFiles at h
  rw [List.mem_mergeSort] at h
  obtain ⟨fi, _, hfi⟩ := List.mem_filterMap.1 h
  by_cases h1 : fi.doc_id ∈ fts
  · rw [if_pos h1] at hfi
    by_cases h2 : 0 < FBR.fileScore q fi
    · rw [if_pos h2] at hfi
      cases hfi
      simpa using le_of_lt h2
    · rw [if_neg h2] at hfi
      cases hfi
  · rw [if_neg h1] at hfi
    cases hfi

theorem boostedFileResults_bounds {fuzz files relevant q k d r}
    (hf : ∀ a b, 0 ≤ fuzz a b ∧ fuzz a b ≤ 100)
    (hrel : ∀ rf ∈ relevant, 0 ≤ rf.2)
    (hr : r ∈ FBR.boostedFileResults fuzz files relevant q k d) :
    0 ≤ r.score ∧ r.score ≤ 1 := by
  unfold FBR.boostedFileResults at hr
  split at hr
  · obtain ⟨r0, hr0, rfl⟩ := List.mem_map.1 hr
    have hb := search_in_file_bounds hf hr0
    have hfs : 0 ≤ ((relevant.find? (fun rf => rf.1 = d)).map
        (fun rf => rf.2)).getD 0 := by
      cases hfind : relevant.find? (fun rf => rf.1 = d) with
      | none => simp
      | some rf =>
        exact hrel rf (List.mem_of_find?_eq_some hfind)
    constructor
    · show (0:ℚ) ≤ min _ 1
      apply le_min _ zero_le_one
      have : (0:ℚ) ≤ ((relevant.find? (fun rf => rf.1 = d)).map
          (fun rf => rf.2)).getD 0 * (1 / 10) := by positivity
      linarith [hb.1]
    · exact min_le_right _ _
  · exact search_in_file_bounds hf hr

theorem search_with_keyword_bounds {fuzz files w fts k r}
    (hf : ∀ a b, 0 ≤ fuzz a b ∧ fuzz a b ≤ 100)
    (hr : r ∈ FBR.search_with_keyword fuzz files w fts k) :
    0 ≤ r.score ∧ r.score ≤ 1 := by
  unfold FBR.search_with_keyword at hr
  have hr2 := (List.take_sublist _ _).mem hr
  rw [mem_sortByScore] at hr2
  obtain ⟨d, _, hd⟩ := List.mem_flatMap.1 hr2
  exact search_in_file_bounds hf hd

theorem dedupPenalise_mem {l : List ScoredChunk} {seen : List String}
    {r : ScoredChunk} (h : r ∈ FBR.dedupPenalise l seen) :
    ∃ r0 ∈ l, r = { r0 with score := r0.score * (7 / 10) } := by
  induction l generalizing seen with
  | nil => cases h
  | cons x xs ih =>
    unfold FBR.dedupPenalise at h
    split at h
    · obtain ⟨r0, hr0, hr⟩ := ih h
      exact ⟨r0, List.mem_cons_of_mem _ hr0, hr⟩
    · rcases List.mem_cons.1 h with rfl | hmem
      · exact ⟨x, List.mem_cons_self _ _, rfl⟩
      · obtain ⟨r0, hr0, hr⟩ := ih hmem
        exact ⟨r0, List.mem_cons_of_mem _ hr0, hr⟩

theorem mainResults_bounds {fuzz files q k r}
    (hf : ∀ a b, 0 ≤ fuzz a b ∧ fuzz a b ≤ 100)
    (hr : r ∈ FBR.mainResults fuzz files q k) :
    0 ≤ r.score ∧ r.score ≤ 1 := by
  unfold FBR.mainResults at hr
  have hr2 := (List.take_sublist _ _).mem hr
  rw [mem_sortByScore] at hr2
  obtain ⟨d, _, hd⟩ := List.mem_flatMap.1 hr2
  exact boostedFileResults_bounds hf
    (fun rf hrf => relevantFiles_nonneg hrf) hd

theorem fallbackResults_bounds {fuzz files q k ordered r}
    (hf : ∀ a b, 0 ≤ fuzz a b ∧ fuzz a b ≤ 100)
    (hr : r ∈ FBR.fallbackResults fuzz files q k ordered) :
    0 ≤ r.score ∧ r.score ≤ 1 := by
  simp only [FBR.fallbackResults] at hr
  split at hr
  · have hr2 := (List.take_sublist _ _).mem hr
    rw [mem_sortByScore] at hr2
    obtain ⟨r0, hr0, rfl⟩ := dedupPenalise_mem hr2
    obtain ⟨w, _, hw⟩ := List.mem_flatMap.1 hr0
    have hb := search_with_keyword_bounds hf hw
    constructor
    · show (0:ℚ) ≤ r0.score * (7 / 10)
      exact mul_nonneg hb.1 (by norm_num)
    · show r0.score * (7 / 10) ≤ 1
      nlinarith [hb.1, hb.2]
  · cases hr

/-- C3 (amended): the per-chunk score equals the exact/fuzzy base
(`1.0` on substring match, else fuzzy `/ 100`) plus `0.1` per query word
TOKEN found in the chunk text - tokens counted with multiplicity, not
per distinct word - clamped above at `1.0`; with the fuzzy score in
`[0,100]`, every chunk score and every score returned by
`search_in_file` and `search_across_files` (after the metadata boost and
the fallback penalty) lies in `[0,1]`. -/
theorem C3_amended_chunk_score_formula_and_bounds :
    ∀ (fuzz : String → String → ℚ),
      (∀ a b, 0 ≤ fuzz a b ∧ fuzz a b ≤ 100) →
      (∀ q c, FBR.chunkScore fuzz q c =
        min ((if pyIn q c then 1 else fuzz q c / 100) +
          ((pySplit q).filter (fun w => pyIn w c)).length * (1 / 10)) 1) ∧
      (∀ q c, 0 ≤ FBR.chunkScore fuzz q c ∧ FBR.chunkScore fuzz q c ≤ 1) ∧
      (∀ files d q k r, r ∈ FBR.search_in_file fuzz files d q k →
        0 ≤ r.score ∧ r.score ≤ 1) ∧
      (∀ files q k ff fb rs,
        FBR.search_across_files fuzz files q k ff fb = .ok rs →
        ∀ r ∈ rs, 0 ≤ r.score ∧ r.score ≤ 1) := by
  intro fuzz hf
  refine ⟨?_, chunkScore_bounds fuzz hf,
    fun files d q k r hr => search_in_file_bounds hf hr, ?_⟩
  · intro q c
    simp only [FBR.chunkScore]
    rw [List.countP_eq_length_filter]
  · intro files q k ff fb rs hok r hr
    rcases ff with _ | (_ | ⟨f, fs⟩)
    · simp only [FBR.search_across_files] at hok
      split at hok
      · cases hok
        exact fallbackResults_bounds hf hr
      · cases hok
        exact mainResults_bounds hf hr
    · simp only [FBR.search_across_files] at hok
      split at hok
      · cases hok
        exact fallbackResults_bounds hf hr
      · cases hok
        exact mainResults_bounds hf hr
    · cases hok

/-- C3 counterexample: for the query `"ab ab"` (the token `"ab"` twice)
against chunk text `"ab cd"` with a fuzzy score of `0`, the code scores
`0 + 2 * 0.1 = 0.2` (one `0.1` per token occurrence), while the claim's
"per distinct query word" reading gives `0.1`: the claim's formula does
not match the code. -/
theorem C3_counterexample :
    FBR.chunkScore (fun _ _ => 0) "ab ab" "ab cd" = 1 / 5 ∧
    FBR.chunkScoreSpecDistinct (fun _ _ => 0) "ab ab" "ab cd" = 1 / 10 ∧
    FBR.chunkScore (fun _ _ => 0) "ab ab" "ab cd" ≠
      FBR.chunkScoreSpecDistinct (fun _ _ => 0) "ab ab" "ab cd" := by
  have h1 : pyIn "ab ab" "ab cd" = false := by decide
  have h2 : pySplit "ab ab" = ["ab", "ab"] := by decide
  have h3 : pyIn "ab" "ab cd" = true := by decide
  have h4 : (["ab", "ab"] : List String).dedup = ["ab"] := by decide
  have h5 : FBR.chunkScore (fun _ _ => 0) "ab ab" "ab cd" = 1 / 5 := by
    simp only [FBR.chunkScore, h1, h2, Bool.false_eq_true, if_false,
      List.countP_cons, List.countP_nil, h3, if_true]
    norm_num [min_def]
  have h6 : FBR.chunkScoreSpecDistinct (fun _ _ => 0) "ab ab" "ab cd" = 1 / 10 := by
    simp only [FBR.chunkScoreSpecDistinct, h1, h2, h4, Bool.false_eq_true, if_false,
      List.filter_cons, List.filter_nil, h3, if_true, List.length_cons,
      List.length_nil]
    norm_num [min_def]
  exact ⟨h5, h6, by rw [h5, h6]; norm_num⟩

/-- Witness for the amended C3 theorem at the constant-zero fuzzy score
and a concrete query/chunk pair. -/
theorem C3_witness :
    0 ≤ FBR.chunkScore (fun _ _ => 0) "ab" "cd" ∧
    FBR.chunkScore (fun _ _ => 0) "ab" "cd" ≤ 1 :=
  (C3_amended_chunk_score_formula_and_bounds (fun _ _ => 0)
    (fun _ _ => ⟨le_refl 0, by norm_num⟩)).2.1 "ab" "cd"

/-! ## Claim C4 -/

theorem sortByScore_eq_nil {l : List ScoredChunk}
    (h : FBR.sortByScore l = []) : l = [] := by
  have := congrArg List.length h
  rw [FBR.sortByScore, List.length_mergeSort] at this
  exact List.length_eq_zero.1 this

theorem search_in_file_empty_summary {fuzz files d q k} (hk : 0 < k)
    (h : FBR.search_in_file fuzz files d q k = []) :
    FBR.load_file_summary files d = none ∨
    ∃ s, FBR.load_file_summary files d = some s ∧ s.chunks = [] := by
  unfold FBR.search_in_file at h
  cases hload : FBR.load_file_summary files d with
  | none => exact Or.inl rfl
  | some s =>
    rw [hload] at h
    refine Or.inr ⟨s, rfl, ?_⟩
    rcases List.take_eq_nil_iff.1 h with h2 | h2
    · omega
    · have h3 := sortByScore_eq_nil h2
      have := congrArg List.length h3
      rw [List.length_map] at this
      exact List.length_eq_zero.1 this

theorem search_in_file_of_empty_summary {fuzz files d}
    (h : FBR.load_file_summary files d = none ∨
      ∃ s, FBR.load_file_summary files d = some s ∧ s.chunks = [])
    (q : String) (k : Nat) : FBR.search_in_file fuzz files d q k = [] := by
  unfold FBR.search_in_file
  rcases h with h | ⟨s, hs, hc⟩
  · rw [h]
  · rw [hs]
    simp [hc, FBR.sortByScore]

theorem mainResults_nil_empty {fuzz files q k} (hk : 0 < k)
    (h : FBR.mainResults fuzz files q k = []) :
    ∀ d ∈ FBR.filesOrdered
      (FBR.relevantFiles (pyLower q) files (files.map (fun f => f.doc_id)))
      (files.map (fun f => f.doc_id)),
      FBR.load_file_summary files d = none ∨
      ∃ s, FBR.load_file_summary files d = some s ∧ s.chunks = [] := by
  intro d hd
  unfold FBR.mainResults at h
  rcases List.take_eq_nil_iff.1 h with h2 | h2
  · omega
  · have h3 := sortByScore_eq_nil h2
    have h4 := List.flatMap_eq_nil_iff.1 h3 d hd
    unfold FBR.boostedFileResults at h4
    split at h4
    · have h5 : FBR.search_in_file fuzz files d q k = [] :=
        List.map_eq_nil_iff.1 h4
      exact search_in_file_empty_summary hk h5
    · exact search_in_file_empty_summary hk h4

theorem search_with_keyword_nil {fuzz files w fts k}
    (h : ∀ d ∈ fts, FBR.load_file_summary files d = none ∨
      ∃ s, FBR.load_file_summary files d = some s ∧ s.chunks = []) :
    FBR.search_with_keyword fuzz files w fts k = [] := by
  unfold FBR.search_with_keyword
  have step : ∀ (l : List String),
      (∀ d ∈ l, FBR.search_in_file fuzz files d w 3 = []) →
      (FBR.sortByScore (l.flatMap
        (fun d => FBR.search_in_file fuzz files d w 3))).take k = [] := by
    intro l hl
    rw [List.flatMap_eq_nil_iff.2 hl]
    simp [FBR.sortByScore]
  apply step
  intro d hd
  have hd2 := (List.take_sublist _ _).mem hd
  rcases List.mem_append.1 hd2 with hd3 | hd3
  · obtain ⟨fi, _, hfi⟩ := List.mem_filterMap.1 hd3
    split at hfi
    · next hcond =>
        cases hfi
        exact search_in_file_of_empty_summary (h _ hcond.1) w 3
    · cases hfi
  · exact search_in_file_of_empty_summary (h d (List.mem_filter.1 hd3).1) w 3

theorem fallback_eq_spec {fuzz : String → String → ℚ} {files : List FileSummary}
    {query : String} {top_k : Nat} {ordered : List String}
    (hk : top_k = 0 ∨ ∀ d ∈ ordered, FBR.load_file_summary files d = none ∨
      ∃ s, FBR.load_file_summary files d = some s ∧ s.chunks = []) :
    FBR.fallbackResults fuzz files query top_k ordered =
      FBR.specFallback fuzz files query top_k ordered := by
  simp only [FBR.fallbackResults, FBR.specFallback]
  split
  · rfl
  · have step2 : ∀ raw : List ScoredChunk, raw = [] →
        ([] : List ScoredChunk) =
          (FBR.sortByScore (FBR.dedupPenalise raw [])).take top_k := by
      intro raw hraw
      rw [hraw]
      simp [FBR.dedupPenalise, FBR.sortByScore]
    rcases hk with hk | hempty
    · subst hk
      simp
    · apply step2
      apply List.flatMap_eq_nil_iff.2
      intro w _
      exact search_with_keyword_nil hempty

/-- C4: when the full-query search over all documents yields no chunk and
fallback is enabled, `search_across_files` returns exactly the claimed
fallback procedure (word split, single-character tokens dropped,
per-word budget `top_k` over the word count, `chunk_id` deduplication,
`× 0.7` penalty, re-sort, truncation); the returned list never exceeds
`top_k` entries and every entry is a raw per-word result with its score
multiplied by `0.7`. -/
theorem C4_fallback_procedure :
    ∀ (fuzz : String → String → ℚ) (files : List FileSummary) (query : String)
      (top_k : Nat),
      FBR.mainResults fuzz files query top_k = [] →
      FBR.search_across_files fuzz files query top_k none true =
        .ok (FBR.specFallback fuzz files query top_k
          (FBR.filesOrdered
            (FBR.relevantFiles (pyLower query) files
              (files.map (fun f => f.doc_id)))
            (files.map (fun f => f.doc_id)))) ∧
      (FBR.specFallback fuzz files query top_k
          (FBR.filesOrdered
            (FBR.relevantFiles (pyLower query) files
              (files.map (fun f => f.doc_id)))
            (files.map (fun f => f.doc_id)))).length ≤ top_k ∧
      (∀ r ∈ FBR.specFallback fuzz files query top_k
          (FBR.filesOrdered
            (FBR.relevantFiles (pyLower query) files
              (files.map (fun f => f.doc_id)))
            (files.map (fun f => f.doc_id))),
        ∃ r0 ∈ ((pySplit query).filter (fun w => 1 < w.length)).flatMap
            (fun w => FBR.search_with_keyword fuzz files w
              (FBR.filesOrdered
                (FBR.relevantFiles (pyLower query) files
                  (files.map (fun f => f.doc_id)))
                (files.map (fun f => f.doc_id)))
              (top_k / (pySplit query).length)),
          r = { r0 with score := r0.score * (7 / 10) }) := by
  intro fuzz files query top_k h
  have hside : top_k = 0 ∨ ∀ d ∈ FBR.filesOrdered
      (FBR.relevantFiles (pyLower query) files (files.map (fun f => f.doc_id)))
      (files.map (fun f => f.doc_id)),
      FBR.load_file_summary files d = none ∨
      ∃ s, FBR.load_file_summary files d = some s ∧ s.chunks = [] := by
    rcases Nat.eq_zero_or_pos top_k with hk | hk
    · exact Or.inl hk
    · exact Or.inr (mainResults_nil_empty hk h)
  refine ⟨?_, ?_, ?_⟩
  · simp only [FBR.search_across_files]
    rw [if_pos ⟨h, trivial⟩]
    rw [fallback_eq_spec hside]
  · exact List.length_take_le _ _
  · intro r hr
    simp only [FBR.specFallback] at hr
    have hr2 := (List.take_sublist _ _).mem hr
    rw [mem_sortByScore] at hr2
    obtain ⟨r0, hr0, rfl⟩ := dedupPenalise_mem hr2
    exact ⟨r0, hr0, rfl⟩

unseal List.mergeSort List.merge in
/-- Witness for C4 at a concrete store with no summaries, where the
full-query search returns zero chunks. -/
theorem C4_witness :
    FBR.search_across_files (fun _ _ => 0) [] "ab cd" 3 none true =
      .ok (FBR.specFallback (fun _ _ => 0) [] "ab cd" 3
        (FBR.filesOrdered
          (FBR.relevantFiles (pyLower "ab cd") []
            (([] : List FileSummary).map (fun f => f.doc_id)))
          (([] : List FileSummary).map (fun f => f.doc_id)))) :=
  (C4_fallback_procedure (fun _ _ => 0) [] "ab cd" 3 (by decide)).1

/-! ## Claim C1 -/

theorem u32at_drop (b : List Nat) (i : Nat) :
    Hwp.u32at (b.drop i) 0 = Hwp.u32at b i := by
  unfold Hwp.u32at
  have hlen : (b.drop i).length = b.length - i := List.length_drop i b
  have hiff : 0 + 4 ≤ (b.drop i).length ↔ i + 4 ≤ b.length := by omega
  have hgd : ∀ k, (b.drop i).getD k 0 = b.getD (i + k) 0 := by
    intro k
    rw [List.getD_eq_getElem?_getD, List.getD_eq_getElem?_getD,
      List.getElem?_drop]
  by_cases h : i + 4 ≤ b.length
  · rw [if_pos (hiff.2 h), if_pos h]
    rw [hgd 0, hgd 1, hgd 2, hgd 3]
    norm_num
  · rw [if_neg (fun hc => h (hiff.1 hc)), if_neg h]

theorem recordWalk_drop_aux :
    ∀ (n : Nat) (b : List Nat) (i : Nat), b.length - i ≤ n →
      Hwp.recordWalk b i = Hwp.recordWalk (b.drop i) 0 := by
  intro n
  induction n with
  | zero =>
    intro b i hle
    rw [Hwp.recordWalk, Hwp.recordWalk]
    rw [if_neg (by omega), if_neg (by rw [List.length_drop]; omega)]
  | succ n ih =>
    intro b i hle
    by_cases h : i < b.length
    · rw [Hwp.recordWalk, Hwp.recordWalk,
        if_pos h, if_pos (by rw [List.length_drop]; omega), u32at_drop]
      cases hu : Hwp.u32at b i with
      | none => rfl
      | some hdr =>
        dsimp only
        have hpay : (b.drop i).drop (0 + 4) = b.drop (i + 4) := by
          rw [List.drop_drop]
        rw [hpay]
        have hrec1 := ih b (i + 4 + Hwp.recLen hdr) (by omega)
        have hrec2 := ih (b.drop i) (0 + 4 + Hwp.recLen hdr)
          (by rw [List.length_drop]; omega)
        rw [hrec1, hrec2, List.drop_drop]
        have heq : i + (0 + 4 + Hwp.recLen hdr) = i + 4 + Hwp.recLen hdr := by
          omega
        rw [heq]
    · rw [Hwp.recordWalk, Hwp.recordWalk,
        if_neg h, if_neg (by rw [List.length_drop]; omega)]

theorem recordWalk_drop (b : List Nat) (i : Nat) :
    Hwp.recordWalk b i = Hwp.recordWalk (b.drop i) 0 :=
  recordWalk_drop_aux b.length b i (by omega)

theorem encodeRec_length (r : Hwp.HwpRec) :
    (Hwp.encodeRec r).length = 4 + r.payload.length := by
  unfold Hwp.encodeRec Hwp.encodeHeader
  simp
  omega

theorem u32at_encodeHeader (tag level len : Nat) (h1 : tag < 1024)
    (h2 : level < 1024) (h3 : len < 4096) (tail : List Nat) :
    Hwp.u32at (Hwp.encodeHeader tag level len ++ tail) 0 =
      some (tag + 1024 * level + 1048576 * len) := by
  unfold Hwp.u32at Hwp.encodeHeader
  rw [if_pos (by simp)]
  simp only [List.cons_append, List.nil_append, List.getD_cons_zero,
    List.getD_cons_succ]
  congr 1
  omega

theorem recLen_encode (tag level len : Nat) (h1 : tag < 1024)
    (h2 : level < 1024) (h3 : len < 4096) :
    Hwp.recLen (tag + 1024 * level + 1048576 * len) = len := by
  unfold Hwp.recLen
  rw [Nat.shiftRight_eq_div_pow]
  have e1 : (0xfff : Nat) = 2 ^ 12 - 1 := by norm_num
  rw [e1, Nat.and_pow_two_sub_one_eq_mod]
  norm_num
  omega

theorem recTag_encode (tag level len : Nat) (h1 : tag < 1024)
    (_h2 : level < 1024) (_h3 : len < 4096) :
    Hwp.recTag (tag + 1024 * level + 1048576 * len) = tag := by
  unfold Hwp.recTag
  have e2 : (0x3ff : Nat) = 2 ^ 10 - 1 := by norm_num
  rw [e2, Nat.and_pow_two_sub_one_eq_mod]
  norm_num
  omega

theorem recordWalk_cons (r : Hwp.HwpRec) (hwf : Hwp.wellFormedRec r)
    (rest : List Nat) :
    Hwp.recordWalk (Hwp.encodeRec r ++ rest) 0 =
      match Hwp.recordWalk rest 0 with
      | none => none
      | some l =>
        some (if r.tag = Hwp.paraTextTag then r.payload :: l else l) := by
  obtain ⟨h1, h2, h3, h4⟩ := hwf
  have hu : Hwp.u32at (Hwp.encodeRec r ++ rest) 0 =
      some (r.tag + 1024 * r.level + 1048576 * r.len) := by
    unfold Hwp.encodeRec
    rw [List.append_assoc]
    exact u32at_encodeHeader r.tag r.level r.len h1 h2 h3 _
  have hlen4 : (Hwp.encodeHeader r.tag r.level r.len).length = 4 := by
    unfold Hwp.encodeHeader
    simp
  rw [Hwp.recordWalk]
  rw [if_pos (by rw [List.length_append, encodeRec_length]; omega)]
  rw [hu]
  dsimp only
  rw [recLen_encode r.tag r.level r.len h1 h2 h3,
    recTag_encode r.tag r.level r.len h1 h2 h3]
  have hdrop : (Hwp.encodeRec r ++ rest).drop (0 + 4) = r.payload ++ rest := by
    unfold Hwp.encodeRec
    rw [List.append_assoc]
    exact List.drop_left' hlen4
  rw [hdrop, List.take_left' h4]
  have hrec : Hwp.recordWalk (Hwp.encodeRec r ++ rest) (0 + 4 + r.len) =
      Hwp.recordWalk rest 0 := by
    rw [recordWalk_drop]
    congr 1
    apply List.drop_left'
    rw [encodeRec_length]
    omega
  rw [hrec]

theorem recordWalk_trunc (r : Hwp.HwpRec) (h1 : r.tag < 1024)
    (h2 : r.level < 1024) (h3 : r.len < 4096)
    (h4 : r.payload.length < r.len) :
    Hwp.recordWalk (Hwp.encodeRec r) 0 =
      some (if r.tag = Hwp.paraTextTag then [r.payload] else []) := by
  have hu : Hwp.u32at (Hwp.encodeRec r) 0 =
      some (r.tag + 1024 * r.level + 1048576 * r.len) :=
    u32at_encodeHeader r.tag r.level r.len h1 h2 h3 _
  have hlen4 : (Hwp.encodeHeader r.tag r.level r.len).length = 4 := by
    unfold Hwp.encodeHeader
    simp
  rw [Hwp.recordWalk]
  rw [if_pos (by rw [encodeRec_length]; omega)]
  rw [hu]
  dsimp only
  rw [recLen_encode r.tag r.level r.len h1 h2 h3,
    recTag_encode r.tag r.level r.len h1 h2 h3]
  have hdrop : (Hwp.encodeRec r).drop (0 + 4) = r.payload :=
    List.drop_left' hlen4
  rw [hdrop, List.take_of_length_le (le_of_lt h4)]
  have hrec : Hwp.recordWalk (Hwp.encodeRec r) (0 + 4 + r.len) = some [] := by
    rw [Hwp.recordWalk]
    rw [if_neg (by rw [encodeRec_length]; omega)]
  rw [hrec]

theorem recordWalk_stream (recs : List Hwp.HwpRec) (tail : List Nat)
    (L : List (List Nat)) (hwf : ∀ r ∈ recs, Hwp.wellFormedRec r)
    (htail : Hwp.recordWalk tail 0 = some L) :
    Hwp.recordWalk ((recs.map Hwp.encodeRec).flatten ++ tail) 0 =
      some (((recs.filter (fun r => r.tag = Hwp.paraTextTag)).map
        (fun r => r.payload)) ++ L) := by
  induction recs with
  | nil => simpa using htail
  | cons r rs ih =>
    have hwfr := hwf r (List.mem_cons_self _ _)
    have ihr := ih (fun x hx => hwf x (List.mem_cons_of_mem _ hx))
    rw [List.map_cons, List.flatten_cons, List.append_assoc,
      recordWalk_cons r hwfr, ihr]
    by_cases ht : r.tag = Hwp.paraTextTag
    · simp [List.filter_cons, ht]
    · simp [List.filter_cons, ht]

/-- C1: over a serialised record stream, the walk reads the 4-byte
little-endian header word at the cursor, takes the low 10 bits as the
tag and bits 20-31 as the payload length, collects (decoded as UTF-16 LE
plus a `"\n"`) exactly the payloads whose tag is `67`, advances by
`4 + payload_length` per record, and tolerates a truncated final record
whose claimed length exceeds the remaining bytes by stopping at
end-of-buffer with everything decoded up to that point and no error. -/
theorem C1_record_walk :
    ∀ (recs : List Hwp.HwpRec) (fin : Hwp.HwpRec),
      (∀ r ∈ recs, Hwp.wellFormedRec r) →
      fin.tag < 1024 → fin.level < 1024 → fin.len < 4096 →
      fin.payload.length < fin.len →
      Hwp.recordWalk ((recs.map Hwp.encodeRec).flatten ++ Hwp.encodeRec fin) 0 =
        some ((recs.filter (fun r => r.tag = Hwp.paraTextTag)).map
            (fun r => r.payload) ++
          (if fin.tag = Hwp.paraTextTag then [fin.payload] else [])) ∧
      Hwp.sectionText ((recs.map Hwp.encodeRec).flatten ++ Hwp.encodeRec fin) =
        some (((((recs.filter (fun r => r.tag = Hwp.paraTextTag)).map
            (fun r => r.payload)) ++
          (if fin.tag = Hwp.paraTextTag then [fin.payload] else [])).map
            (fun p => Hwp.utf16Scalars (Hwp.decodeU16le p) ++ [10])).flatten) ∧
      Hwp.recordWalk ((recs.map Hwp.encodeRec).flatten) 0 =
        some ((recs.filter (fun r => r.tag = Hwp.paraTextTag)).map
          (fun r => r.payload)) := by
  intro recs fin hwf h1 h2 h3 h4
  have hwalk := recordWalk_stream recs (Hwp.encodeRec fin)
    (if fin.tag = Hwp.paraTextTag then [fin.payload] else []) hwf
    (recordWalk_trunc fin h1 h2 h3 h4)
  have hclean : Hwp.recordWalk ((recs.map Hwp.encodeRec).flatten) 0 =
      some ((recs.filter (fun r => r.tag = Hwp.paraTextTag)).map
        (fun r => r.payload)) := by
    have := recordWalk_stream recs [] [] hwf
      (by rw [Hwp.recordWalk]; simp)
    simpa using this
  refine ⟨hwalk, ?_, hclean⟩
  unfold Hwp.sectionText
  rw [hwalk]
  rfl

unseal Hwp.recordWalk Hwp.utf16Scalars in
/-- Witness for C1: a stream of a paragraph-text record with payload
`"A"`, a non-text record, and a truncated final paragraph-text record
claiming 5 payload bytes with only 2 present. -/
theorem C1_witness :
    Hwp.recordWalk
        ((([⟨67, 0, 2, [65, 0]⟩, ⟨68, 0, 1, [0]⟩] :
            List Hwp.HwpRec).map Hwp.encodeRec).flatten ++
          Hwp.encodeRec ⟨67, 0, 5, [66, 0]⟩) 0 =
      some ((([⟨67, 0, 2, [65, 0]⟩, ⟨68, 0, 1, [0]⟩] :
          List Hwp.HwpRec).filter (fun r => r.tag = Hwp.paraTextTag)).map
            (fun r => r.payload) ++
        (if (67 : Nat) = Hwp.paraTextTag then [[66, 0]] else [])) :=
  (C1_record_walk [⟨67, 0, 2, [65, 0]⟩, ⟨68, 0, 1, [0]⟩] ⟨67, 0, 5, [66, 0]⟩
    (by intro r hr; fin_cases hr <;> exact ⟨by norm_num, by norm_num, by norm_num, rfl⟩)
    (by norm_num) (by norm_num) (by norm_num) (by norm_num)).1

/-! ## Claim C6 -/

theorem iterEnd_gt (cfg : OC.Cfg) (text : List Char) (index : Nat)
    (hidx : index < text.length) (hcs : 1 ≤ cfg.chunk_size) :
    index < OC.iterEnd cfg text index := by
  simp only [OC.iterEnd]
  split
  · split
    · next hb =>
      omega
    · next hb =>
      omega
  · omega

theorem iterEnd_le (cfg : OC.Cfg) (text : List Char) (index : Nat) :
    OC.iterEnd cfg text index ≤ text.length := by
  simp only [OC.iterEnd]
  split
  · split
    · next hb =>
      rcases findBwd_bounds text ((min (index + cfg.chunk_size) text.length : Nat) - 50) with h | h <;>
        omega
    · omega
  · omega

theorem nextStart_ge (cfg : OC.Cfg) (text : List Char) (index e : Nat) :
    index + cfg.min_chunk_size ≤ OC.nextStart cfg text index e := by
  simp only [OC.nextStart]
  split
  · split
    · next hf =>
      have := findFwd_ge text ((max (e - cfg.chunk_overlap) (index + cfg.min_chunk_size) : Nat) : Int)
      omega
    · omega
  · omega

theorem chunkLoop_isSome (cfg : OC.Cfg) (text : List Char) (d : String)
    (hcs : 1 ≤ cfg.chunk_size) (hmin : 1 ≤ cfg.min_chunk_size) :
    ∀ (fuel : Nat) (st : OC.LoopState), text.length - st.index ≤ fuel →
      (OC.chunkLoop cfg text d fuel st).isSome = true := by
  intro fuel
  induction fuel with
  | zero =>
    intro st hle
    simp only [OC.chunkLoop]
    rw [if_neg (by omega)]
    rfl
  | succ fuel ih =>
    intro st hle
    simp only [OC.chunkLoop]
    by_cases h : st.index < text.length
    · rw [if_pos h]
      have he := iterEnd_gt cfg text st.index h hcs
      split
      · apply ih
        simp only
        omega
      · split
        · rfl
        · apply ih
          have hns := nextStart_ge cfg text st.index (OC.iterEnd cfg text st.index)
          simp only
          omega
    · rw [if_neg h]
      rfl

/-- C6 (amended): for every non-empty text and every configuration with
`chunk_size ≥ 1` and `min_chunk_size ≥ 1`, the end position strictly
exceeds the cursor, the next start is at least `index + min_chunk_size`,
so every loop iteration strictly advances the cursor and the loop
terminates within `len(text)` iterations. -/
theorem C6_amended_strict_progress :
    ∀ (cfg : OC.Cfg) (text : List Char) (d : String),
      1 ≤ cfg.chunk_size → 1 ≤ cfg.min_chunk_size → text ≠ [] →
      (∀ index, index < text.length → index < OC.iterEnd cfg text index) ∧
      (∀ index e, index + cfg.min_chunk_size ≤ OC.nextStart cfg text index e) ∧
      (OC.chunk cfg text d text.length).isSome = true := by
  intro cfg text d hcs hmin hne
  refine ⟨fun index hidx => iterEnd_gt cfg text index hidx hcs,
    fun index e => nextStart_ge cfg text index e, ?_⟩
  simp only [OC.chunk]
  rw [if_neg hne]
  have hloop := chunkLoop_isSome
    { cfg with chunk_overlap := min cfg.chunk_overlap (cfg.chunk_size / 3) }
    text d hcs hmin text.length ⟨[], 0, 0⟩ (by omega)
  obtain ⟨cs, hcs2⟩ := Option.isSome_iff_exists.1 hloop
  rw [hcs2]
  rfl

set_option maxRecDepth 40000 in
/-- C6 counterexample: two configurations on which the loop does not
terminate within `len(text)` iterations (it never terminates): with
`min_chunk_size = 0` the forward-boundary snap can keep the cursor in
place (sentence marks everywhere), and with `chunk_size = 0` the merge
branch sets `index = end = index`. -/
theorem C6_counterexample :
    OC.chunk ⟨51, 1, 0⟩ (List.replicate 52 '。') "d" 52 = none ∧
    OC.chunk ⟨0, 0, 1⟩ "ab".data "d" 2 = none :=
  ⟨by decide, by decide⟩

/-- Witness for the amended C6 theorem at the default configuration on a
one-character text. -/
theorem C6_witness :
    (OC.chunk ⟨1000, 200, 100⟩ ['a'] "d" 1).isSome = true :=
  (C6_amended_strict_progress ⟨1000, 200, 100⟩ ['a'] "d"
    (by norm_num) (by norm_num) (by decide)).2.2

/-! ## Claim C7 -/

theorem chunkLoop_done (cfg : OC.Cfg) (text : List Char) (d : String)
    (fuel : Nat) (st : OC.LoopState) (h : ¬ st.index < text.length) :
    OC.chunkLoop cfg text d fuel st = some st.chunks := by
  cases fuel <;> simp only [OC.chunkLoop] <;> rw [if_neg h]

theorem finalMerge_singleton (cfg : OC.Cfg) (c : OC.ChunkRec) :
    OC.finalMerge cfg [c] = [c] := by
  simp [OC.finalMerge]

theorem finalMerge_pair_large (cfg : OC.Cfg) (c1 c2 : OC.ChunkRec)
    (h : ¬ c2.chunk_text.length < cfg.min_chunk_size) :
    OC.finalMerge cfg [c1, c2] = [c1, c2] := by
  simp only [OC.finalMerge]
  rw [if_neg]
  simp only [List.getLast?_cons_cons, List.getLast?_singleton]
  intro hc
  exact h (by simpa using hc.2)

theorem iterEnd700_first (text : List Char) (h700 : text.length = 700) :
    451 ≤ OC.iterEnd ⟨600, 100, 100⟩ text 0 ∧
    OC.iterEnd ⟨600, 100, 100⟩ text 0 ≤ 550 := by
  have hb := findBwd_bounds text 550
  simp only [OC.iterEnd, h700]
  norm_num
  rcases hb with hb | hb
  · rw [if_pos (by rw [hb]; norm_num)]
    rw [hb]
    norm_num
  · rw [if_pos (by omega)]
    omega

theorem iterEnd700_second (text : List Char) (h700 : text.length = 700)
    {s2 : Nat} (hs2 : 351 ≤ s2) :
    OC.iterEnd ⟨600, 100, 100⟩ text s2 = 700 := by
  simp only [OC.iterEnd, h700]
  rw [min_eq_right (by omega), if_neg (by omega)]

theorem nextStart700 (text : List Char) (h700 : text.length = 700)
    {e : Nat} (he1 : 451 ≤ e) (he2 : e ≤ 550) :
    e - 100 ≤ OC.nextStart ⟨600, 100, 100⟩ text 0 e ∧
    OC.nextStart ⟨600, 100, 100⟩ text 0 e < e := by
  have hf := findFwd_ge text (((max (e - 100) (0 + 100) : Nat) : Int))
  simp only [OC.nextStart, h700]
  have hmax : max (e - 100) (0 + 100) = e - 100 := by omega
  rw [hmax] at hf ⊢
  rw [if_pos (by omega)]
  split
  · next hlt => omega
  · omega

theorem C7_loop (text : List Char) (d : String) (h700 : text.length = 700)
    (fuel : Nat) :
    ∃ cs, OC.chunkLoop ⟨600, 100, 100⟩ text d (fuel + 1 + 1) ⟨[], 0, 0⟩ =
        some cs ∧
      ((∃ s2, 351 ≤ s2 ∧ s2 ≤ 549 ∧
          (pyStrip ((text.drop s2).take (700 - s2))).length < 100 ∧
          cs.map (fun c => (c.char_offset_start, c.char_offset_end)) =
            [(0, 700)]) ∨
        (∃ e1 s2, 451 ≤ e1 ∧ e1 ≤ 550 ∧ e1 - 100 ≤ s2 ∧ s2 < e1 ∧
          cs.map (fun c => (c.char_offset_start, c.char_offset_end)) =
            [(0, e1), (s2, 700)] ∧
          ∃ c1 c2, cs = [c1, c2] ∧ c2.chunk_text.length = 700 - s2)) := by
  obtain ⟨e1, he1def, he1, he2⟩ :
      ∃ e1, OC.iterEnd ⟨600, 100, 100⟩ text 0 = e1 ∧ 451 ≤ e1 ∧ e1 ≤ 550 :=
    ⟨_, rfl, (iterEnd700_first text h700).1, (iterEnd700_first text h700).2⟩
  obtain ⟨s2, hs2def, hs1, hs2⟩ :
      ∃ s2, OC.nextStart ⟨600, 100, 100⟩ text 0 e1 = s2 ∧
        e1 - 100 ≤ s2 ∧ s2 < e1 := by
    refine ⟨_, rfl, ?_, ?_⟩
    · exact (nextStart700 text h700 he1 he2).1
    · exact (nextStart700 text h700 he1 he2).2
  have hiter2 : OC.iterEnd ⟨600, 100, 100⟩ text s2 = 700 :=
    iterEnd700_second text h700 (by omega)
  simp only [OC.chunkLoop]
  rw [he1def, hs2def, hiter2]
  rw [if_pos (show (0:Nat) < text.length by omega)]
  rw [if_neg (fun hc => absurd hc.2 (by omega))]
  rw [if_neg (show ¬ text.length ≤ e1 by omega)]
  rw [if_pos (show s2 < text.length by omega)]
  by_cases hm : (pyStrip ((text.drop s2).take (700 - s2))).length < 100
  · rw [if_pos ⟨hm, by omega⟩]
    rw [chunkLoop_done _ _ _ _ _ (by show ¬ (700:Nat) < text.length; omega)]
    refine ⟨_, rfl, Or.inl ⟨s2, by omega, by omega, hm, ?_⟩⟩
    simp [OC.modifyLast]
  · rw [if_neg (fun hc => absurd hc.1 hm)]
    rw [if_pos (show text.length ≤ 700 by omega)]
    refine ⟨_, rfl, Or.inr ⟨e1, s2, he1, he2, hs1, hs2, ?_, _, _, rfl, ?_⟩⟩
    · simp
    · simp [h700]

/-- C7 (amended): a 700-character text chunked with
`chunk_size = 600, chunk_overlap = 100` yields one or two chunks: either
exactly two chunks whose first ends in `[451, 550]` and whose second
starts in `[351, 549]` - not in `[500, 600]` as claimed, because the
backward boundary search pulls `end` back to at most `550` even when no
sentence boundary exists - or a single chunk covering `[0, 700)`, and
the single-chunk case occurs only when the text from the second
candidate start `s2 ∈ [351, 549]` onwards strips to fewer than 100
characters (the merge branch folds the short tail into the first
chunk). -/
theorem C7_amended_700_char_text :
    ∀ (text : List Char) (d : String), text.length = 700 →
      ∃ cs, OC.chunk ⟨600, 100, 100⟩ text d 700 = some cs ∧
        (1 ≤ cs.length ∧ cs.length ≤ 2) ∧
        ((∃ s2, 351 ≤ s2 ∧ s2 ≤ 549 ∧
            (pyStrip ((text.drop s2).take (700 - s2))).length < 100 ∧
            cs.map (fun c => (c.char_offset_start, c.char_offset_end)) =
              [(0, 700)]) ∨
          (∃ e1 s2, 451 ≤ e1 ∧ e1 ≤ 550 ∧ 351 ≤ s2 ∧ s2 ≤ 549 ∧ s2 < e1 ∧
            cs.map (fun c => (c.char_offset_start, c.char_offset_end)) =
              [(0, e1), (s2, 700)])) := by
  intro text d h700
  have hne : text ≠ [] := by
    intro h
    rw [h] at h700
    cases h700
  obtain ⟨cs, hcs, hP⟩ := C7_loop text d h700 698
  have hchunk : OC.chunk ⟨600, 100, 100⟩ text d 700 =
      some (OC.finalMerge ⟨600, 100, 100⟩ cs) := by
    simp only [OC.chunk]
    rw [if_neg hne]
    have hov : (100 : Nat) ⊓ (600 / 3) = 100 := by norm_num
    have hfuel : (700 : Nat) = 698 + 1 + 1 := by norm_num
    rw [hov, hfuel, hcs]
  rcases hP with ⟨s2, ha2, hb2, hm2, hone⟩ |
    ⟨e1, s2, he1, he2, hs1, hs2, hmap, c1, c2, hcseq, hlen⟩
  · obtain ⟨c, hc⟩ : ∃ c, cs = [c] := by
      cases cs with
      | nil => cases hone
      | cons a l =>
        cases l with
        | nil => exact ⟨a, rfl⟩
        | cons b m => simp at hone
    subst hc
    refine ⟨[c], ?_, by simp, Or.inl ⟨s2, ha2, hb2, hm2, hone⟩⟩
    rw [hchunk, finalMerge_singleton]
  · subst hcseq
    refine ⟨[c1, c2], ?_, by simp, Or.inr ⟨e1, s2, he1, he2, by omega, by omega,
      hs2, hmap⟩⟩
    rw [hchunk, finalMerge_pair_large _ c1 c2
      (by show ¬ c2.chunk_text.length < 100; omega)]

set_option maxRecDepth 100000 in
/-- C7 counterexample: two 700-character inputs with
`chunk_size = 600, chunk_overlap = 100` refuting both parts of the
original claim. On 700 `'a'`s (no sentence boundaries anywhere) the
chunks are `[0, 550)` and `[450, 700)`: there are 2 chunks but the
second chunk's `char_offset_start` is `450`, which is NOT at least 500.
On 540 `'a'`s followed by 160 spaces the result is a single chunk
`[0, 700)` (the tail after the second start strips below
`min_chunk_size` and is merged back), so the chunker does NOT return
exactly 2 chunks. -/
theorem C7_counterexample :
    ((OC.chunk ⟨600, 100, 100⟩ (List.replicate 700 'a') "d" 700).map
      (fun cs => cs.map (fun c => (c.char_offset_start, c.char_offset_end))) =
      some [(0, 550), (450, 700)] ∧ ¬ (500 : Nat) ≤ 450) ∧
    ((OC.chunk ⟨600, 100, 100⟩
        (List.replicate 540 'a' ++ List.replicate 160 ' ') "d" 700).map
      (fun cs => cs.map (fun c => (c.char_offset_start, c.char_offset_end))) =
      some [(0, 700)] ∧ ¬ (1 : Nat) = 2) :=
  ⟨⟨by decide, by decide⟩, ⟨by decide, by decide⟩⟩

/-- Witness for the amended C7 theorem on the all-`'a'` text. -/
theorem C7_witness :
    ∃ cs, OC.chunk ⟨600, 100, 100⟩ (List.replicate 700 'a') "d" 700 =
        some cs ∧
      (1 ≤ cs.length ∧ cs.length ≤ 2) ∧
      ((∃ s2, 351 ≤ s2 ∧ s2 ≤ 549 ∧
          (pyStrip (((List.replicate 700 'a').drop s2).take (700 - s2))).length
            < 100 ∧
          cs.map (fun c => (c.char_offset_start, c.char_offset_end)) =
            [(0, 700)]) ∨
        (∃ e1 s2, 451 ≤ e1 ∧ e1 ≤ 550 ∧ 351 ≤ s2 ∧ s2 ≤ 549 ∧ s2 < e1 ∧
          cs.map (fun c => (c.char_offset_start, c.char_offset_end)) =
            [(0, e1), (s2, 700)])) :=
  C7_amended_700_char_text (List.replicate 700 'a') "d"
    (by rw [List.length_replicate])

/-! ## Claim C5 -/

theorem iterEnd_default (text : List Char) (index : Nat)
    (hidx : index < text.length) :
    (OC.iterEnd ⟨1000, 200, 100⟩ text index = text.length ∧
      index < OC.iterEnd ⟨1000, 200, 100⟩ text index) ∨
    (OC.iterEnd ⟨1000, 200, 100⟩ text index < text.length ∧
      index + 851 ≤ OC.iterEnd ⟨1000, 200, 100⟩ text index ∧
      OC.iterEnd ⟨1000, 200, 100⟩ text index ≤ index + 950) := by
  simp only [OC.iterEnd]
  by_cases hfar : index + 1000 < text.length
  · right
    rw [min_eq_left (by omega)] at *
    rw [if_pos hfar]
    have hb := findBwd_bounds text (((index + 1000 : Nat) : Int) - 50)
    have hrange : ((index : Int)) + 850 < OC.findBwd text (((index + 1000 : Nat) : Int) - 50) ∧
        OC.findBwd text (((index + 1000 : Nat) : Int) - 50) ≤ ((index : Int)) + 950 := by
      rcases hb with hb | hb <;> constructor <;> omega
    rw [if_pos (by omega)]
    refine ⟨?_, ?_, ?_⟩ <;> omega
  · left
    rw [min_eq_right (by omega)]
    rw [if_neg (by omega)]
    omega

theorem nextStart_default (text : List Char) (index e : Nat)
    (he1 : index + 851 ≤ e) (he2 : e < text.length) :
    e - 200 ≤ OC.nextStart ⟨1000, 200, 100⟩ text index e ∧
    OC.nextStart ⟨1000, 200, 100⟩ text index e < e := by
  simp only [OC.nextStart]
  have hmax : max (e - 200) (index + 100) = e - 200 := by omega
  rw [hmax]
  rw [if_pos (by omega)]
  have hf := findFwd_ge text ((e - 200 : Nat) : Int)
  split
  · next hlt => omega
  · omega

theorem head?_append_left {α : Type} {l l2 : List α} {a : α}
    (h : l.head? = some a) : (l ++ l2).head? = some a := by
  cases l with
  | nil => cases h
  | cons x xs => simpa using h

theorem chain'_snoc {α : Type} {R : α → α → Prop} {l : List α} {x : α}
    (hl : l.Chain' R) (hx : ∀ a, l.getLast? = some a → R a x) :
    (l ++ [x]).Chain' R := by
  rw [List.chain'_append]
  refine ⟨hl, List.chain'_singleton x, ?_⟩
  intro a ha y hy
  simp only [List.head?_cons, Option.mem_def, Option.some.injEq] at hy
  subst hy
  exact hx a ha

theorem chain'_unsnoc {α : Type} {R : α → α → Prop} {l : List α} {x : α}
    (h : (l ++ [x]).Chain' R) :
    l.Chain' R ∧ ∀ a, l.getLast? = some a → R a x := by
  rw [List.chain'_append] at h
  refine ⟨h.1, fun a ha => ?_⟩
  exact h.2.2 a ha x (by simp)

theorem inv_exit (n : Nat) (st : OC.LoopState) (hn : 0 < n)
    (hidx : ¬ st.index < n) (hinv : OC.inv n 200 st) :
    OC.post n st.chunks := by
  rcases hinv with ⟨hc, hi, _⟩ |
    ⟨cs0, last, hdec, hci, hdense, hch1, hch2, hch3, hbnd, hhead, hl1, hl2, hl3, hl4⟩
  · omega
  · have hlast : st.chunks.getLast? = some last := by
      rw [hdec]
      exact List.getLast?_concat _
    have hmem : last ∈ st.chunks := by
      rw [hdec]
      exact List.mem_append_right _ (by simp)
    have hlastend : last.char_offset_end = n := by
      have := (hbnd last hmem).2
      omega
    refine ⟨by rw [hdec]; simp, hdense, hch1, hch2, hch3, hbnd, hhead, ?_⟩
    rw [hlast]
    simp [hlastend]

theorem inv_merge_step (n : Nat) (st : OC.LoopState)
    (upd : OC.ChunkRec → OC.ChunkRec) (e : Nat)
    (hupd_s : ∀ c, (upd c).char_offset_start = c.char_offset_start)
    (hupd_i : ∀ c, (upd c).chunk_index = c.chunk_index)
    (hupd_e : ∀ c, (upd c).char_offset_end = e)
    (hinv : OC.inv n 200 st) (h0 : 0 < st.index)
    (hee : st.index < e) (hen : e ≤ n)
    (helarge : e = n ∨ st.index + 851 ≤ e) :
    OC.inv n 200 ⟨OC.modifyLast upd st.chunks, e, st.chunk_index⟩ := by
  rcases hinv with ⟨hc, hi, _⟩ |
    ⟨cs0, last, hdec, hci, hdense, hch1, hch2, hch3, hbnd, hhead, hl1, hl2, hl3, hl4⟩
  · omega
  · right
    have hmemlast : last ∈ st.chunks := by
      rw [hdec]
      exact List.mem_append_right _ (by simp)
    have hlaste : last.char_offset_end ≤ e := by
      rcases helarge with rfl | hbig
      · exact (hbnd last hmemlast).2
      · omega
    rw [hdec, modifyLast_append_one]
    obtain ⟨hc1, hp1⟩ := chain'_unsnoc (hdec ▸ hch1)
    obtain ⟨hc2, hp2⟩ := chain'_unsnoc (hdec ▸ hch2)
    obtain ⟨hc3, hp3⟩ := chain'_unsnoc (hdec ▸ hch3)
    refine ⟨cs0, upd last, rfl, ?_, ?_, ?_, ?_, ?_, ?_, ?_, ?_, ?_, ?_, ?_⟩
    · show st.chunk_index = (cs0 ++ [upd last]).length
      rw [hci, hdec]
      simp
    · have := hdec ▸ hdense
      simp only [List.map_append, List.map_cons, List.map_nil,
        List.length_append, List.length_cons, List.length_nil] at this ⊢
      rw [hupd_i]
      exact this
    · exact chain'_snoc hc1 (fun a ha => by rw [hupd_s]; exact hp1 a ha)
    · exact chain'_snoc hc2 (fun a ha => by rw [hupd_s]; exact hp2 a ha)
    · refine chain'_snoc hc3 (fun a ha => ?_)
      rw [hupd_e]
      exact le_trans (hp3 a ha) hlaste
    · intro c hc
      rcases List.mem_append.1 hc with hc | hc
      · exact hbnd c (by rw [hdec]; exact List.mem_append_left _ hc)
      · have : c = upd last := by simpa using hc
        subst this
        rw [hupd_s, hupd_e]
        have := (hbnd last hmemlast).1
        constructor
        · omega
        · exact hen
    · cases cs0 with
      | nil =>
        have : last.char_offset_start = 0 := by
          rw [hdec] at hhead
          simpa using hhead
        simp [hupd_s, this]
      | cons x xs =>
        rw [hdec] at hhead
        simpa using hhead
    · show (upd last).char_offset_start < e
      rw [hupd_s]
      omega
    · show e ≤ (upd last).char_offset_end
      rw [hupd_e]
    · show (upd last).char_offset_end ≤ e + 200
      rw [hupd_e]
      omega
    · show 0 < e
      omega

theorem dense_snoc (chunks : List OC.ChunkRec) (rec0 : OC.ChunkRec)
    (hd : chunks.map (fun c => c.chunk_index) = List.range chunks.length)
    (hri : rec0.chunk_index = chunks.length) :
    (chunks ++ [rec0]).map (fun c => c.chunk_index) =
      List.range (chunks ++ [rec0]).length := by
  simp only [List.map_append, List.map_cons, List.map_nil, List.length_append,
    List.length_cons, List.length_nil]
  rw [hd, hri]
  rw [List.range_succ]

theorem inv_snoc_core (n : Nat) (st : OC.LoopState) (rec0 : OC.ChunkRec) (e : Nat)
    (hinv : OC.inv n 200 st) (hidx : st.index < n)
    (hrs : rec0.char_offset_start = st.index)
    (hre : rec0.char_offset_end = e)
    (hri : rec0.chunk_index = st.chunk_index)
    (hee : st.index < e) (hen : e ≤ n)
    (helarge : e = n ∨ st.index + 851 ≤ e) :
    (st.chunks ++ [rec0]).map (fun c => c.chunk_index) =
      List.range (st.chunks ++ [rec0]).length ∧
    (st.chunks ++ [rec0]).Chain'
      (fun a b => a.char_offset_start ≤ b.char_offset_start) ∧
    (st.chunks ++ [rec0]).Chain'
      (fun a b => b.char_offset_start ≤ a.char_offset_end) ∧
    (st.chunks ++ [rec0]).Chain'
      (fun a b => a.char_offset_end ≤ b.char_offset_end) ∧
    (∀ c ∈ st.chunks ++ [rec0],
      c.char_offset_start < c.char_offset_end ∧ c.char_offset_end ≤ n) ∧
    (st.chunks ++ [rec0]).head?.map (fun c => c.char_offset_start) = some 0 ∧
    st.chunk_index + 1 = (st.chunks ++ [rec0]).length := by
  rcases hinv with ⟨hc, hi, hcidx⟩ |
    ⟨cs0, last, hdec, hci, hdense, hch1, hch2, hch3, hbnd, hhead, hl1, hl2, hl3, hl4⟩
  · rw [hc]
    refine ⟨?_, ?_, ?_, ?_, ?_, ?_, ?_⟩
    · simp [hri, hc, hcidx]
      rfl
    · simp
    · simp
    · simp
    · intro c hc2
      have : c = rec0 := by simpa using hc2
      subst this
      rw [hrs, hre]
      exact ⟨hee, hen⟩
    · simp [hrs, hi]
    · simp [hcidx]
  · have hmemlast : last ∈ st.chunks := by
      rw [hdec]
      exact List.mem_append_right _ (by simp)
    have hlaste : last.char_offset_end ≤ e := by
      rcases helarge with rfl | hbig
      · exact (hbnd last hmemlast).2
      · omega
    have hlastq : st.chunks.getLast? = some last := by
      rw [hdec]
      exact List.getLast?_concat _
    refine ⟨dense_snoc _ _ hdense (hri.trans hci), ?_, ?_, ?_, ?_, ?_, ?_⟩
    · refine chain'_snoc hch1 (fun a ha => ?_)
      rw [hlastq] at ha
      cases ha
      rw [hrs]
      omega
    · refine chain'_snoc hch2 (fun a ha => ?_)
      rw [hlastq] at ha
      cases ha
      rw [hrs]
      omega
    · refine chain'_snoc hch3 (fun a ha => ?_)
      rw [hlastq] at ha
      cases ha
      rw [hre]
      exact hlaste
    · intro c hc
      rcases List.mem_append.1 hc with hc | hc
      · exact hbnd c hc
      · have : c = rec0 := by simpa using hc
        subst this
        rw [hrs, hre]
        exact ⟨hee, hen⟩
    · rcases List.exists_cons_of_ne_nil (by rw [hdec]; simp :
        st.chunks ≠ []) with ⟨x, xs, hxs⟩
      rw [hxs]
      rw [hxs] at hhead
      simpa using hhead
    · rw [hci]
      simp

theorem post_break (n : Nat) (st : OC.LoopState) (rec0 : OC.ChunkRec)
    (hinv : OC.inv n 200 st) (hidx : st.index < n)
    (hrs : rec0.char_offset_start = st.index)
    (hre : rec0.char_offset_end = n)
    (hri : rec0.chunk_index = st.chunk_index) :
    OC.post n (st.chunks ++ [rec0]) := by
  obtain ⟨h1, h2, h3, h4, h5, h6, _⟩ :=
    inv_snoc_core n st rec0 n hinv hidx hrs hre hri hidx le_rfl (Or.inl rfl)
  refine ⟨by simp, h1, h2, h3, h4, h5, h6, ?_⟩
  rw [List.getLast?_concat]
  simp [hre]

theorem inv_append_step (n : Nat) (st : OC.LoopState) (rec0 : OC.ChunkRec)
    (e ns : Nat) (hinv : OC.inv n 200 st) (hidx : st.index < n)
    (hrs : rec0.char_offset_start = st.index)
    (hre : rec0.char_offset_end = e)
    (hri : rec0.chunk_index = st.chunk_index)
    (he1 : st.index + 851 ≤ e) (he2 : e < n)
    (hns1 : e - 200 ≤ ns) (hns2 : ns < e) :
    OC.inv n 200 ⟨st.chunks ++ [rec0], ns, st.chunk_index + 1⟩ := by
  obtain ⟨h1, h2, h3, h4, h5, h6, h7⟩ :=
    inv_snoc_core n st rec0 e hinv hidx hrs hre hri (by omega) (by omega)
      (Or.inr he1)
  right
  refine ⟨st.chunks, rec0, rfl, ?_, h1, h2, h3, h4, h5, h6, ?_, ?_, ?_, ?_⟩
  · exact h7
  · show rec0.char_offset_start < ns
    rw [hrs]
    omega
  · show ns ≤ rec0.char_offset_end
    rw [hre]
    omega
  · show rec0.char_offset_end ≤ ns + 200
    rw [hre]
    omega
  · show 0 < ns
    omega

theorem chunkLoop_post_default (text : List Char) (d : String)
    (hn : 0 < text.length) :
    ∀ (fuel : Nat) (st : OC.LoopState), text.length - st.index ≤ fuel →
      OC.inv text.length 200 st →
      ∀ cs, OC.chunkLoop ⟨1000, 200, 100⟩ text d fuel st = some cs →
        OC.post text.length cs := by
  intro fuel
  induction fuel with
  | zero =>
    intro st hfuel hinv cs hrun
    simp only [OC.chunkLoop] at hrun
    split at hrun
    · cases hrun
    · next hidx =>
      cases hrun
      exact inv_exit _ _ hn hidx hinv
  | succ fuel ih =>
    intro st hfuel hinv cs hrun
    simp only [OC.chunkLoop] at hrun
    split at hrun
    · next hidx =>
      have hee := iterEnd_gt ⟨1000, 200, 100⟩ text st.index hidx (by norm_num)
      have hen := iterEnd_le ⟨1000, 200, 100⟩ text st.index
      split at hrun
      · next hmerge =>
        refine ih _ ?_ ?_ cs hrun
        · show text.length - OC.iterEnd ⟨1000, 200, 100⟩ text st.index ≤ fuel
          omega
        · have hel : OC.iterEnd ⟨1000, 200, 100⟩ text st.index = text.length ∨
              st.index + 851 ≤ OC.iterEnd ⟨1000, 200, 100⟩ text st.index := by
            rcases iterEnd_default text st.index hidx with ⟨h1, _⟩ | ⟨_, h2, _⟩
            · exact Or.inl h1
            · exact Or.inr h2
          exact inv_merge_step text.length st _ _ (fun c => rfl) (fun c => rfl)
            (fun c => rfl) hinv hmerge.2 hee hen hel
      · split at hrun
        · next hle2 =>
          rw [Option.some.injEq] at hrun
          subst hrun
          exact post_break text.length st _ hinv hidx rfl
            (le_antisymm hen hle2) rfl
        · next hlt2 =>
          have he2 : OC.iterEnd ⟨1000, 200, 100⟩ text st.index < text.length := by
            omega
          have he1 : st.index + 851 ≤ OC.iterEnd ⟨1000, 200, 100⟩ text st.index := by
            rcases iterEnd_default text st.index hidx with ⟨h1, _⟩ | ⟨_, h2, _⟩
            · omega
            · exact h2
          have hns := nextStart_default text st.index _ he1 he2
          refine ih _ ?_ ?_ cs hrun
          · show text.length - OC.nextStart ⟨1000, 200, 100⟩ text st.index
                (OC.iterEnd ⟨1000, 200, 100⟩ text st.index) ≤ fuel
            omega
          · exact inv_append_step text.length st _ _ _ hinv hidx rfl rfl rfl
              he1 he2 hns.1 hns.2
    · next hidx =>
      cases hrun
      exact inv_exit _ _ hn hidx hinv

theorem dense_unsnoc (l : List OC.ChunkRec) (x : OC.ChunkRec)
    (h : (l ++ [x]).map (fun c => c.chunk_index) =
      List.range (l ++ [x]).length) :
    l.map (fun c => c.chunk_index) = List.range l.length ∧
    x.chunk_index = l.length := by
  simp only [List.map_append, List.map_cons, List.map_nil, List.length_append,
    List.length_cons, List.length_nil] at h
  rw [List.range_succ] at h
  have h2 := List.append_inj h (by simp)
  refine ⟨h2.1, ?_⟩
  simpa using h2.2

theorem finalMerge_post (cfg : OC.Cfg) (n : Nat) (chunks : List OC.ChunkRec)
    (hp : OC.post n chunks) : OC.post n (OC.finalMerge cfg chunks) := by
  obtain ⟨hne, hdense, hch1, hch2, hch3, hbnd, hhead, hlast⟩ := hp
  simp only [OC.finalMerge]
  split
  · next hcond =>
    obtain ⟨hlen2, _⟩ := hcond
    obtain ⟨l1, z, hz⟩ := (List.eq_nil_or_concat' chunks).resolve_left hne
    have hl1ne : l1 ≠ [] := by
      intro h0
      rw [h0] at hz
      rw [hz] at hlen2
      simp at hlen2
    obtain ⟨cs, y, hy⟩ := (List.eq_nil_or_concat' l1).resolve_left hl1ne
    rw [hy] at hz
    subst hz
    rw [List.getLast?_concat]
    rw [List.dropLast_concat]
    show OC.post n (OC.modifyLast _ (cs ++ [y]))
    rw [modifyLast_append_one]
    have hzn : z.char_offset_end = n := by
      rw [List.getLast?_concat] at hlast
      simpa using hlast
    have hylast : (cs ++ [y]).getLast? = some y := List.getLast?_concat _
    obtain ⟨hch1a, hr1a⟩ := chain'_unsnoc hch1
    obtain ⟨hch2a, hr2a⟩ := chain'_unsnoc hch2
    obtain ⟨hch3a, hr3a⟩ := chain'_unsnoc hch3
    have hyz : y.char_offset_end ≤ z.char_offset_end := hr3a y hylast
    obtain ⟨hc1b, hr1b⟩ := chain'_unsnoc hch1a
    obtain ⟨hc2b, hr2b⟩ := chain'_unsnoc hch2a
    obtain ⟨hc3b, hr3b⟩ := chain'_unsnoc hch3a
    obtain ⟨hd1, hzci⟩ := dense_unsnoc _ z hdense
    obtain ⟨hd2, hyci⟩ := dense_unsnoc _ y hd1
    have hymem : y ∈ (cs ++ [y]) ++ [z] :=
      List.mem_append_left _ (List.mem_append_right _ (by simp))
    have hzmem : z ∈ (cs ++ [y]) ++ [z] := List.mem_append_right _ (by simp)
    refine ⟨by simp, ?_, ?_, ?_, ?_, ?_, ?_, ?_⟩
    · exact dense_snoc cs _ hd2 hyci
    · exact chain'_snoc hc1b (fun a ha => hr1b a ha)
    · exact chain'_snoc hc2b (fun a ha => hr2b a ha)
    · exact chain'_snoc hc3b (fun a ha => le_trans (hr3b a ha) hyz)
    · intro c hc
      rcases List.mem_append.1 hc with hc | hc
      · exact hbnd c (List.mem_append_left _ (List.mem_append_left _ hc))
      · have hcy := List.mem_singleton.1 hc
        rw [hcy]
        have hyb := hbnd y hymem
        have hzb := hbnd z hzmem
        show y.char_offset_start < z.char_offset_end ∧ z.char_offset_end ≤ n
        omega
    · cases cs with
      | nil =>
        have : y.char_offset_start = 0 := by simpa using hhead
        show some _ = some 0
        simpa using this
      | cons a l =>
        simpa using hhead
    · rw [List.getLast?_concat]
      show some z.char_offset_end = some n
      rw [hzn]
  · next =>
    exact ⟨hne, hdense, hch1, hch2, hch3, hbnd, hhead, hlast⟩

theorem cover_aux (k : Nat) :
    ∀ (chunks : List OC.ChunkRec) (s : Nat),
      chunks.head?.map (fun c => c.char_offset_start) = some s →
      s ≤ k →
      (∀ a, chunks.getLast? = some a → k < a.char_offset_end) →
      chunks.Chain' (fun a b => b.char_offset_start ≤ a.char_offset_end) →
      ∃ c ∈ chunks, c.char_offset_start ≤ k ∧ k < c.char_offset_end := by
  intro chunks
  induction chunks with
  | nil =>
    intro s hs
    cases hs
  | cons x xs ih =>
    intro s hs hsk hlast hchain
    have hxs : x.char_offset_start = s := by simpa using hs
    by_cases hk : k < x.char_offset_end
    · exact ⟨x, by simp, by omega, hk⟩
    · cases xs with
      | nil =>
        exact absurd (hlast x (by simp)) hk
      | cons y ys =>
        rw [List.chain'_cons] at hchain
        obtain ⟨hxy, htail⟩ := hchain
        obtain ⟨c, hc, h1, h2⟩ := ih y.char_offset_start (by simp) (by omega)
          (fun a ha => hlast a (by rw [List.getLast?_cons_cons]; exact ha))
          htail
        exact ⟨c, List.mem_cons_of_mem _ hc, h1, h2⟩

/-- C5: for every input text, `OptimizedChunker.chunk` at the default
configuration (`chunk_size = 1000`, `chunk_overlap = 200`,
`min_chunk_size = 100`) terminates within `len(text)` iterations and
returns a list in which `char_offset_start` is monotonically
non-decreasing across consecutive chunks, every chunk satisfies
`0 ≤ start < end ≤ len(text)`, the union of the half-open ranges
`[start, end)` covers `[0, len(text))`, the `chunk_index` values form
the dense sequence `0, 1, ...`, and the empty input yields the empty
chunk list rather than an error. -/
theorem C5_chunk_offsets_invariants :
    ∀ (text : List Char) (d : String),
      ∃ cs, OC.chunk ⟨1000, 200, 100⟩ text d text.length = some cs ∧
        cs.Chain' (fun a b => a.char_offset_start ≤ b.char_offset_start) ∧
        (∀ c ∈ cs, c.char_offset_start < c.char_offset_end ∧
          c.char_offset_end ≤ text.length) ∧
        (∀ k, k < text.length →
          ∃ c ∈ cs, c.char_offset_start ≤ k ∧ k < c.char_offset_end) ∧
        cs.map (fun c => c.chunk_index) = List.range cs.length ∧
        (text = [] → cs = []) := by
  intro text d
  by_cases hnil : text = []
  · refine ⟨[], ?_, ?_, ?_, ?_, rfl, fun _ => rfl⟩
    · simp [OC.chunk, hnil]
    · simp
    · simp
    · intro k hk
      rw [hnil] at hk
      simp at hk
  · have hn : 0 < text.length := List.length_pos.2 hnil
    have hsome := chunkLoop_isSome ⟨1000, 200, 100⟩ text d (by norm_num)
      (by norm_num) text.length ⟨[], 0, 0⟩
      (by show text.length - 0 ≤ text.length; omega)
    obtain ⟨cs0, hcs0⟩ := Option.isSome_iff_exists.1 hsome
    have hpost := chunkLoop_post_default text d hn text.length ⟨[], 0, 0⟩
      (by show text.length - 0 ≤ text.length; omega)
      (Or.inl ⟨rfl, rfl, rfl⟩) cs0 hcs0
    have hpost2 := finalMerge_post ⟨1000, 200, 100⟩ text.length cs0 hpost
    have hchunk : OC.chunk ⟨1000, 200, 100⟩ text d text.length =
        some (OC.finalMerge ⟨1000, 200, 100⟩ cs0) := by
      simp only [OC.chunk]
      rw [if_neg hnil]
      have hov : (200 : Nat) ⊓ (1000 / 3) = 200 := by norm_num
      rw [hov, hcs0]
    obtain ⟨hne2, hdense2, hch1, hch2, hch3, hbnd2, hhead2, hlast2⟩ := hpost2
    refine ⟨OC.finalMerge ⟨1000, 200, 100⟩ cs0, hchunk, hch1, hbnd2, ?_,
      hdense2, fun h => absurd h hnil⟩
    intro k hk
    refine cover_aux k _ 0 hhead2 (Nat.zero_le k) ?_ hch2
    intro a ha
    rw [ha] at hlast2
    have : a.char_offset_end = text.length := by simpa using hlast2
    omega

/-- Witness for the C5 theorem on a concrete one-character text. -/
theorem C5_witness :
    ∃ cs, OC.chunk ⟨1000, 200, 100⟩ ['a'] "d" (['a'] : List Char).length =
        some cs ∧
      cs.Chain' (fun a b => a.char_offset_start ≤ b.char_offset_start) ∧
      (∀ c ∈ cs, c.char_offset_start < c.char_offset_end ∧
        c.char_offset_end ≤ (['a'] : List Char).length) ∧
      (∀ k, k < (['a'] : List Char).length →
        ∃ c ∈ cs, c.char_offset_start ≤ k ∧ k < c.char_offset_end) ∧
      cs.map (fun c => c.chunk_index) = List.range cs.length ∧
      ((['a'] : List Char) = [] → cs = []) :=
  C5_chunk_offsets_invariants ['a'] "d"
